import Mathlib

/-!
Verification of the mcp-swagger-client core against its specification.

The development shallowly embeds the two core subsystems of the repository:

* the reference resolver of `src/parser.ts` (`detectVersion`, `resolveRef`,
  `resolveSchema`, `normalizeSpec`), modelled over a deep embedding of JSON
  values, with JavaScript truthiness, object-spread and property-assignment
  semantics made explicit; the possibly-throwing behaviour of the source is
  captured by an `Except String` result;
* the spec cache of `src/cache.ts` (`checkIfModified`, `fetchSpec`,
  `getCachedSpec`), modelled as pure functions over an abstract world
  describing the cache file content and the outcomes of the HEAD and GET
  requests, returning the produced document together with the performed
  side effects (cache write, full fetch).

`resolveSchema` in the source is generally recursive; here it is defined
through a fuel-indexed approximation `resolveSchemaF` together with an
explicit fuel bound `fuelFor`, and the stabilisation theorem
`resolveSchemaF_stab` proves the recursion depth never exceeds that bound,
which is the termination argument for the source function.

A second, heap-level embedding `resolveSchemaH` models the JavaScript
object store explicitly (objects as addresses into a mutable heap) in order
to state and prove the frame property: resolution never writes to any
pre-existing object, so the cached document and the input fragment are
never mutated.
-/

/-! ## JSON values

JavaScript values reachable from a parsed OpenAPI document. Objects and
arrays are modelled with mutually inductive spine types so that all
recursive functions below are structural (and hence compute by `rfl`). -/

mutual

inductive Json where
  | null : Json
  | bool (b : Bool) : Json
  | num (n : Int) : Json
  | str (s : String) : Json
  | arr (elems : JArr) : Json
  | obj (fields : JObj) : Json

inductive JArr where
  | nil : JArr
  | cons (hd : Json) (tl : JArr) : JArr

inductive JObj where
  | nil : JObj
  | cons (key : String) (val : Json) (tl : JObj) : JObj

end

def JArr.toList : JArr → List Json
  | .nil => []
  | .cons x xs => x :: xs.toList

def JArr.ofList : List Json → JArr
  | [] => .nil
  | x :: xs => .cons x (JArr.ofList xs)

def JObj.toList : JObj → List (String × Json)
  | .nil => []
  | .cons k v xs => (k, v) :: xs.toList

def JObj.ofList : List (String × Json) → JObj
  | [] => .nil
  | (k, v) :: xs => .cons k v (JObj.ofList xs)

/-- JavaScript truthiness of a value. -/
def jsTruthy : Json → Bool
  | .null => false
  | .bool b => b
  | .num n => n != 0
  | .str s => s != ""
  | .arr _ => true
  | .obj _ => true

/-- `typeof v !== "object"` (with `null` also filtered out by falsiness in
the source's guard `!schema || typeof schema !== "object"`). -/
def isPrim : Json → Bool
  | .arr _ => false
  | .obj _ => false
  | _ => true

/-- Property read on an association list: first matching key, as a
JavaScript object lookup (JS objects have unique keys, so first-match
agrees with the object semantics). -/
def lookupKvs (kvs : List (String × Json)) (k : String) : Option Json :=
  (kvs.find? (fun p => p.1 == k)).map (fun p => p.2)

/-- A property value that passes a JavaScript truthiness test
(`if (obj.k) ...`). -/
def getTruthy (kvs : List (String × Json)) (k : String) : Option Json :=
  match lookupKvs kvs k with
  | some v => if jsTruthy v then some v else none
  | none => none

/-- JavaScript property assignment `o[k] = v` on an association list:
replaces the value in place if the key exists, appends otherwise. -/
def setProp : List (String × Json) → String → Json → List (String × Json)
  | [], k, v => [(k, v)]
  | (k', v') :: rest, k, v =>
    if k' == k then (k', v) :: rest else (k', v') :: setProp rest k v

/-- Sequential property assignment of every entry of `b` onto `a`: the
semantics of the object literal `{ ...a, ...b }` (later entries win). -/
def mergeProps (a b : List (String × Json)) : List (String × Json) :=
  b.foldl (fun acc p => setProp acc p.1 p.2) a

/-- Rest destructuring `const { $ref, ...rest } = schema`: every own
property except the named one. -/
def removeKey (kvs : List (String × Json)) (k : String) : List (String × Json) :=
  kvs.filter (fun p => p.1 != k)

/-- Decimal digits of a natural number (fuel-based so that it computes by
`rfl`); mirrors the decimal string JavaScript uses for array indices. -/
def natDigits : Nat → Nat → List Char
  | 0, _ => []
  | fuel + 1, n =>
    if n < 10 then [Nat.digitChar n]
    else natDigits fuel (n / 10) ++ [Nat.digitChar (n % 10)]

def natToStr (n : Nat) : String :=
  String.mk (natDigits (n + 1) n)

/-- Parse a list of decimal digits; `none` on a non-digit. -/
def digitsToNat : List Char → Option Nat
  | [] => none
  | cs => go cs 0
where
  go : List Char → Nat → Option Nat
    | [], acc => some acc
    | c :: rest, acc =>
      if c.isDigit then go rest (acc * 10 + (c.toNat - 48)) else none

/-- Own enumerable string-keyed entries of an array, `["0", x0], ...`. -/
def arrEntries (i : Nat) : List Json → List (String × Json)
  | [] => []
  | x :: xs => (natToStr i, x) :: arrEntries (i + 1) xs

/-- Own enumerable entries of a string: indexed single-character strings. -/
def charEntries (i : Nat) : List Char → List (String × Json)
  | [] => []
  | c :: cs => (natToStr i, Json.str (String.mk [c])) :: charEntries (i + 1) cs

/-- Own enumerable entries of a value: the common semantics of both the
object spread `{ ...v }` and `Object.entries(v)` in JavaScript (primitives
other than strings contribute nothing; `null` never reaches this point in
the source because of truthiness guards, and contributes nothing anyway). -/
def jsSpread : Json → List (String × Json)
  | .null => []
  | .bool _ => []
  | .num _ => []
  | .str s => charEntries 0 s.data
  | .arr xs => arrEntries 0 xs.toList
  | .obj kvs => kvs.toList

/-- JavaScript string-keyed read on an array: canonical numeric indices
plus the `length` property; anything else is `undefined`. -/
def arrIndex (xs : List Json) (k : String) : Option Json :=
  if k == "length" then some (.num xs.length)
  else
    match digitsToNat k.data with
    | some n => if natToStr n == k then xs[n]? else none
    | none => none

/-! ## `parser.ts`: reference resolution -/

/-- `segment.replace(/~1/g, "/")`. -/
def replTilde1 : List Char → List Char
  | [] => []
  | '~' :: '1' :: rest => '/' :: replTilde1 rest
  | c :: rest => c :: replTilde1 rest

/-- `segment.replace(/~0/g, "~")`. -/
def replTilde0 : List Char → List Char
  | [] => []
  | '~' :: '0' :: rest => '~' :: replTilde0 rest
  | c :: rest => c :: replTilde0 rest

/-- JSON-Pointer escape decoding applied to one segment, in source order:
first `~1` to `/`, then `~0` to `~`. -/
def decodeSegment (seg : String) : String :=
  String.mk (replTilde0 (replTilde1 seg.data))

/-- `ref.split("/")` (single-character separator, JavaScript semantics:
the empty string yields one empty segment). -/
def splitSlash : List Char → List String
  | [] => [""]
  | '/' :: rest => "" :: splitSlash rest
  | c :: rest =>
    match splitSlash rest with
    | s :: ss => String.mk (c :: s.data) :: ss
    | [] => [String.mk [c]]

/-- `ref.startsWith("#/")`. -/
def startsWithHashSlash (s : String) : Bool :=
  match s.data with
  | '#' :: '/' :: _ => true
  | _ => false

/-- The segment-by-segment walk of `resolveRef`'s `for` loop. The current
value is an `Option` because a JavaScript property read may yield
`undefined`; `null`/`undefined` and non-object intermediates raise, which
the loop surfaces as `Except.error` carrying the source's message. -/
def refWalk (ref : String) : Option Json → List String → Except String (Option Json)
  | cur, [] => .ok cur
  | cur, seg :: rest =>
    let d := decodeSegment seg
    match cur with
    | none => .error ("Cannot resolve reference: " ++ ref ++ " (path does not exist)")
    | some .null => .error ("Cannot resolve reference: " ++ ref ++ " (path does not exist)")
    | some (.bool _) => .error ("Cannot resolve reference: " ++ ref ++ " (invalid path)")
    | some (.num _) => .error ("Cannot resolve reference: " ++ ref ++ " (invalid path)")
    | some (.str _) => .error ("Cannot resolve reference: " ++ ref ++ " (invalid path)")
    | some (.arr xs) => refWalk ref (arrIndex xs.toList d) rest
    | some (.obj kvs) => refWalk ref (lookupKvs kvs.toList d) rest

/-- `resolveRef(spec, ref)` of `src/parser.ts`: internal JSON-Pointer
resolution; rejects non-internal references, walks the document, and
raises when the walk dies or ends on `undefined`. -/
def resolveRef (spec : Json) (ref : String) : Except String Json :=
  if !(startsWithHashSlash ref) then
    .error ("External references not supported: " ++ ref)
  else
    match refWalk ref (some spec) (splitSlash (ref.data.drop 2)) with
    | .error e => .error e
    | .ok none => .error ("Cannot resolve reference: " ++ ref ++ " (not found)")
    | .ok (some v) => .ok v

/-! ## `parser.ts`: `resolveSchema` -/

/-- The placeholder fragment returned when a reference's pointer string is
already on the current resolution path. -/
def circularPlaceholder (r : String) : Json :=
  .obj (.cons "description" (.str ("Circular reference: " ++ r))
    (.cons "type" (.str "object") .nil))

/-- `schema.$ref` filtered by the truthiness guard `if (schema.$ref)`.
Arrays have no `$ref` property; primitives never reach this check. -/
def refOf : Json → Option Json
  | .obj kvs => getTruthy kvs.toList "$ref"
  | _ => none

/-- Resolve the `properties` entries: `Object.fromEntries(Object.entries
(result.properties).map(([key, value]) => [key, resolveSchema(...)]))`. -/
def stepProperties (rec : Json → Except String Json)
    (kvs : List (String × Json)) : Except String (List (String × Json)) :=
  match getTruthy kvs "properties" with
  | none => .ok kvs
  | some p =>
    match (jsSpread p).mapM (fun q => (rec q.2).map (fun v => (q.1, v))) with
    | .error e => .error e
    | .ok entries => .ok (setProp kvs "properties" (.obj (JObj.ofList entries)))

/-- Resolve `items`: per element when it is an array, directly otherwise. -/
def stepItems (rec : Json → Except String Json)
    (kvs : List (String × Json)) : Except String (List (String × Json)) :=
  match getTruthy kvs "items" with
  | none => .ok kvs
  | some (.arr xs) =>
    match xs.toList.mapM rec with
    | .error e => .error e
    | .ok ys => .ok (setProp kvs "items" (.arr (JArr.ofList ys)))
  | some i =>
    match rec i with
    | .error e => .error e
    | .ok v => .ok (setProp kvs "items" v)

/-- Resolve `additionalProperties` when it is truthy and of object type
(`typeof === "object"` covers both objects and arrays, `null` being
excluded by truthiness). -/
def stepAdditional (rec : Json → Except String Json)
    (kvs : List (String × Json)) : Except String (List (String × Json)) :=
  match getTruthy kvs "additionalProperties" with
  | some (.arr xs) =>
    match rec (.arr xs) with
    | .error e => .error e
    | .ok v => .ok (setProp kvs "additionalProperties" v)
  | some (.obj fs) =>
    match rec (.obj fs) with
    | .error e => .error e
    | .ok v => .ok (setProp kvs "additionalProperties" v)
  | _ => .ok kvs

/-- Resolve a composition keyword (`allOf`/`oneOf`/`anyOf`) by mapping over
its members. A truthy non-array value makes `.map` raise a `TypeError`,
which `resolveSchema` does not catch locally. -/
def stepComp (key : String) (rec : Json → Except String Json)
    (kvs : List (String × Json)) : Except String (List (String × Json)) :=
  match getTruthy kvs key with
  | none => .ok kvs
  | some (.arr xs) =>
    match xs.toList.mapM rec with
    | .error e => .error e
    | .ok ys => .ok (setProp kvs key (.arr (JArr.ofList ys)))
  | some _ => .error ("TypeError: " ++ key ++ ".map is not a function")

/-- Resolve `not`. -/
def stepNot (rec : Json → Except String Json)
    (kvs : List (String × Json)) : Except String (List (String × Json)) :=
  match getTruthy kvs "not" with
  | none => .ok kvs
  | some nv =>
    match rec nv with
    | .error e => .error e
    | .ok v => .ok (setProp kvs "not" v)

/-- The non-reference body of `resolveSchema`: shallow-copy the fragment
(`const result = { ...schema }`, given here as `base`) and resolve each
nested field in source order. Every recursive call receives the same
visited set, mirroring the fresh `new Set(visited)` copies handed to each
branch in the source. -/
def branchStep (rec : Json → Except String Json)
    (base : List (String × Json)) : Except String Json :=
  match stepProperties rec base with
  | .error e => .error e
  | .ok r1 =>
    match stepItems rec r1 with
    | .error e => .error e
    | .ok r2 =>
      match stepAdditional rec r2 with
      | .error e => .error e
      | .ok r3 =>
        match stepComp "allOf" rec r3 with
        | .error e => .error e
        | .ok r4 =>
          match stepComp "oneOf" rec r4 with
          | .error e => .error e
          | .ok r5 =>
            match stepComp "anyOf" rec r5 with
            | .error e => .error e
            | .ok r6 =>
              match stepNot rec r6 with
              | .error e => .error e
              | .ok r7 => .ok (.obj (JObj.ofList r7))

/-- One unfolding of `resolveSchema(spec, schema, visited)`, parameterised
by the recursive occurrences. Mirrors `src/parser.ts` lines 60-134:
primitives and falsy values are returned as-is; a truthy `$ref` is checked
against the visited set, resolved, merged with its siblings (siblings win)
and recursively resolved, errors from that whole block being caught and
answered with the original fragment; a truthy non-string `$ref` makes
`resolveRef` raise (caught the same way); otherwise the fragment's nested
schemas are resolved branch by branch. -/
def resolveStep (spec : Json) (rec : Json → Finset String → Except String Json)
    (schema : Json) (visited : Finset String) : Except String Json :=
  if isPrim schema then .ok schema
  else
    match refOf schema with
    | some (.str r) =>
      if r ∈ visited then .ok (circularPlaceholder r)
      else
        match resolveRef spec r with
        | .error _ => .ok schema
        | .ok target =>
          match rec
            (.obj (JObj.ofList (mergeProps (jsSpread target) (removeKey (jsSpread schema) "$ref"))))
            (insert r visited) with
          | .error _ => .ok schema
          | .ok v => .ok v
    | some _ => .ok schema
    | none => branchStep (fun v => rec v visited) (jsSpread schema)

/-- Fuel-indexed approximation of `resolveSchema`. Primitive fragments
return at any fuel (the source returns them before any recursion). -/
def resolveSchemaF (spec : Json) : Nat → Json → Finset String → Except String Json
  | 0, schema, _ => if isPrim schema then .ok schema else .error "out of fuel"
  | fuel + 1, schema, visited =>
    resolveStep spec (fun v vis => resolveSchemaF spec fuel v vis) schema visited

/-! ### The termination measure

Weighted size of a value (strings weigh their length so that spreading a
string into character entries stays bounded), and the set of string values
occurring in a value (each string contributing itself and its characters,
so that entries produced by spreading are covered). -/

mutual

def sz : Json → Nat
  | .null => 1
  | .bool _ => 1
  | .num _ => 1
  | .str s => 1 + s.length
  | .arr xs => 1 + szA xs
  | .obj kvs => 1 + szO kvs

def szA : JArr → Nat
  | .nil => 0
  | .cons x xs => 2 + sz x + szA xs

def szO : JObj → Nat
  | .nil => 0
  | .cons _ v xs => 2 + sz v + szO xs

end

/-- The single-character strings of a string's characters. -/
def charStrs : List Char → Finset String
  | [] => ∅
  | c :: cs => insert (String.mk [c]) (charStrs cs)

mutual

def strsOf : Json → Finset String
  | .null => ∅
  | .bool _ => ∅
  | .num _ => ∅
  | .str s => insert s (charStrs s.data)
  | .arr xs => strsOfA xs
  | .obj kvs => strsOfO kvs

def strsOfA : JArr → Finset String
  | .nil => ∅
  | .cons x xs => strsOf x ∪ strsOfA xs

def strsOfO : JObj → Finset String
  | .nil => ∅
  | .cons _ v xs => strsOf v ∪ strsOfO xs

end

/-- Fuel bound for `resolveSchemaF`: enough for the visited set to exhaust
every pointer string reachable from the document and the fragment, with
room for the structural descent in between. -/
def fuelFor (spec schema : Json) (visited : Finset String) : Nat :=
  ((strsOf spec ∪ strsOf schema) \ visited).card * (4 * sz spec + 1) + sz schema

/-- `resolveSchema(spec, schema, visited)` of `src/parser.ts`: the
fuel-based approximation run at its stabilisation bound (theorem
`resolveSchemaF_stab` below proves the bound suffices, i.e. the source's
recursion terminates). An uncaught JavaScript `TypeError` (a truthy
non-array composition keyword reached outside any enclosing `$ref` `try`)
surfaces as `Except.error`. -/
def resolveSchema (spec schema : Json) (visited : Finset String) : Except String Json :=
  resolveSchemaF spec (fuelFor spec schema visited) schema visited


/-! ## Lemmas: sizes and string sets of entry lists -/

/-- Weighted size of an entry list (matches `szO` on object spines). -/
def szL (l : List (String × Json)) : Nat :=
  l.foldr (fun p acc => 2 + sz p.2 + acc) 0

/-- String values of an entry list (matches `strsOfO` on object spines). -/
def strsL (l : List (String × Json)) : Finset String :=
  l.foldr (fun p acc => strsOf p.2 ∪ acc) ∅

/-- Weighted size of an element list (matches `szA` on array spines). -/
def szLA (l : List Json) : Nat :=
  l.foldr (fun x acc => 2 + sz x + acc) 0

/-- String values of an element list (matches `strsOfA` on array spines). -/
def strsLA (l : List Json) : Finset String :=
  l.foldr (fun x acc => strsOf x ∪ acc) ∅

theorem sz_pos (j : Json) : 1 ≤ sz j := by
  cases j <;> simp [sz]

theorem szL_toList : ∀ kvs : JObj, szL kvs.toList = szO kvs
  | .nil => rfl
  | .cons k v tl => by
    have := szL_toList tl
    simp only [JObj.toList, szL, szO, List.foldr] at *
    omega

theorem szL_ofList : ∀ l : List (String × Json), szO (JObj.ofList l) = szL l
  | [] => rfl
  | (k, v) :: tl => by
    have := szL_ofList tl
    simp only [JObj.ofList, szL, szO, List.foldr] at *
    omega

theorem sz_obj_ofList (l : List (String × Json)) :
    sz (.obj (JObj.ofList l)) = 1 + szL l := by
  simp [sz, szL_ofList]

theorem szLA_toList : ∀ xs : JArr, szLA xs.toList = szA xs
  | .nil => rfl
  | .cons x tl => by
    have := szLA_toList tl
    simp only [JArr.toList, szLA, szA, List.foldr] at *
    omega

theorem strsL_toList : ∀ kvs : JObj, strsL kvs.toList = strsOfO kvs
  | .nil => rfl
  | .cons k v tl => by
    have := strsL_toList tl
    simp only [JObj.toList, strsL, strsOfO, List.foldr] at *
    rw [this]

theorem strsL_ofList : ∀ l : List (String × Json), strsOfO (JObj.ofList l) = strsL l
  | [] => rfl
  | (k, v) :: tl => by
    have := strsL_ofList tl
    simp only [JObj.ofList, strsL, strsOfO, List.foldr] at *
    rw [this]

theorem strsOf_obj_ofList (l : List (String × Json)) :
    strsOf (.obj (JObj.ofList l)) = strsL l := by
  simp [strsOf, strsL_ofList]

theorem strsLA_toList : ∀ xs : JArr, strsLA xs.toList = strsOfA xs
  | .nil => rfl
  | .cons x tl => by
    have := strsLA_toList tl
    simp only [JArr.toList, strsLA, strsOfA, List.foldr] at *
    rw [this]

theorem mem_szL {k : String} {v : Json} {l : List (String × Json)}
    (h : (k, v) ∈ l) : 2 + sz v ≤ szL l := by
  induction l with
  | nil => cases h
  | cons p tl ih =>
    rcases List.mem_cons.mp h with h' | h'
    · cases h'; simp only [szL, List.foldr]; omega
    · have := ih h'; simp only [szL, List.foldr] at *; omega

theorem mem_strsL {k : String} {v : Json} {l : List (String × Json)}
    (h : (k, v) ∈ l) : strsOf v ⊆ strsL l := by
  induction l with
  | nil => cases h
  | cons p tl ih =>
    rcases List.mem_cons.mp h with h' | h'
    · cases h'
      simp only [strsL, List.foldr]
      exact Finset.subset_union_left
    · refine (ih h').trans ?_
      simp only [strsL, List.foldr]
      exact Finset.subset_union_right

theorem mem_szLA {x : Json} {l : List Json} (h : x ∈ l) : 2 + sz x ≤ szLA l := by
  induction l with
  | nil => cases h
  | cons y tl ih =>
    rcases List.mem_cons.mp h with h' | h'
    · cases h'; simp only [szLA, List.foldr]; omega
    · have := ih h'; simp only [szLA, List.foldr] at *; omega

theorem mem_strsLA {x : Json} {l : List Json} (h : x ∈ l) : strsOf x ⊆ strsLA l := by
  induction l with
  | nil => cases h
  | cons y tl ih =>
    rcases List.mem_cons.mp h with h' | h'
    · cases h'
      simp only [strsLA, List.foldr]
      exact Finset.subset_union_left
    · refine (ih h').trans ?_
      simp only [strsLA, List.foldr]
      exact Finset.subset_union_right

/-! ## Lemmas: `jsSpread` -/

theorem arrEntries_map_snd (l : List Json) :
    ∀ i, (arrEntries i l).map (fun p => p.2) = l := by
  induction l with
  | nil => intro i; rfl
  | cons x xs ih => intro i; simp [arrEntries, ih]

theorem szL_arrEntries (l : List Json) : ∀ i, szL (arrEntries i l) = szLA l := by
  induction l with
  | nil => intro i; rfl
  | cons x xs ih =>
    intro i
    simp only [arrEntries, szL, szLA, List.foldr] at *
    rw [ih]

theorem strsL_arrEntries (l : List Json) : ∀ i, strsL (arrEntries i l) = strsLA l := by
  induction l with
  | nil => intro i; rfl
  | cons x xs ih =>
    intro i
    simp only [arrEntries, strsL, strsLA, List.foldr] at *
    rw [ih]

theorem szL_charEntries (cs : List Char) :
    ∀ i, szL (charEntries i cs) = 4 * cs.length := by
  induction cs with
  | nil => intro i; rfl
  | cons c tl ih =>
    intro i
    simp only [charEntries, szL, List.foldr, List.length_cons, sz] at *
    rw [ih]
    simp [String.length]
    ring

theorem strsL_charEntries (cs : List Char) :
    ∀ i, strsL (charEntries i cs) ⊆ charStrs cs := by
  induction cs with
  | nil => intro i; simp [charEntries, strsL]
  | cons c tl ih =>
    intro i x hx
    have hx' : x ∈ strsOf (Json.str (String.mk [c])) ∪ strsL (charEntries (i + 1) tl) := hx
    rcases Finset.mem_union.mp hx' with h | h
    · have hxc : x = String.mk [c] := by
        have h' : x ∈ insert (String.mk [c]) (insert (String.mk [c]) (∅ : Finset String)) := h
        rcases Finset.mem_insert.mp h' with h1 | h1
        · exact h1
        · rcases Finset.mem_insert.mp h1 with h2 | h2
          · exact h2
          · exact absurd h2 (Finset.not_mem_empty x)
      rw [hxc, charStrs]
      exact Finset.mem_insert_self _ _
    · rw [charStrs]
      exact Finset.mem_insert_of_mem (ih (i + 1) h)

theorem mem_charEntries_sz {k : String} {v : Json} {cs : List Char} :
    ∀ i, (k, v) ∈ charEntries i cs → sz v = 2 := by
  induction cs with
  | nil => intro i h; cases h
  | cons c tl ih =>
    intro i h
    rcases List.mem_cons.mp h with h' | h'
    · cases h'; rfl
    · exact ih (i + 1) h'

theorem szL_jsSpread_le (j : Json) : szL (jsSpread j) ≤ 4 * sz j := by
  cases j with
  | null => simp [jsSpread, szL, sz]
  | bool b => simp [jsSpread, szL, sz]
  | num n => simp [jsSpread, szL, sz]
  | str s =>
    rw [jsSpread, szL_charEntries]
    have h1 : sz (Json.str s) = 1 + s.length := rfl
    have h2 : s.length = s.data.length := rfl
    omega
  | arr xs => rw [jsSpread, szL_arrEntries, szLA_toList]; simp [sz]; omega
  | obj kvs => rw [jsSpread, szL_toList]; simp [sz]; omega

theorem strsL_jsSpread_sub (j : Json) : strsL (jsSpread j) ⊆ strsOf j := by
  cases j with
  | null => simp [jsSpread, strsL]
  | bool b => simp [jsSpread, strsL]
  | num n => simp [jsSpread, strsL]
  | str s =>
    refine (strsL_charEntries s.data 0).trans ?_
    rw [strsOf]
    exact Finset.subset_insert _ _
  | arr xs => rw [jsSpread, strsL_arrEntries, strsLA_toList, strsOf]
  | obj kvs => rw [jsSpread, strsL_toList, strsOf]

/-- For an object or array, the spread's entry weight is one below the
value's weight. -/
theorem szL_jsSpread_of_nonPrim {j : Json} (h : isPrim j = false) :
    szL (jsSpread j) + 1 = sz j := by
  cases j with
  | arr xs => rw [jsSpread, szL_arrEntries, szLA_toList]; simp [sz]; omega
  | obj kvs => rw [jsSpread, szL_toList]; simp [sz]; omega
  | null => simp [isPrim] at h
  | bool b => simp [isPrim] at h
  | num n => simp [isPrim] at h
  | str s => simp [isPrim] at h

/-- A spread entry's value is either three lighter than its container or a
single-character string of weight 2. -/
theorem mem_jsSpread_sz {k : String} {v j : Json} (h : (k, v) ∈ jsSpread j) :
    sz v + 3 ≤ sz j ∨ sz v = 2 := by
  cases j with
  | null => cases h
  | bool b => cases h
  | num n => cases h
  | str s =>
    right
    rw [jsSpread] at h
    exact mem_charEntries_sz 0 h
  | arr xs =>
    left
    rw [jsSpread] at h
    have hm : v ∈ xs.toList := by
      have := List.mem_map_of_mem (fun p : String × Json => p.2) h
      rwa [arrEntries_map_snd] at this
    have h1 := mem_szLA hm
    have h2 : szLA xs.toList = szA xs := szLA_toList xs
    have h3 : sz (Json.arr xs) = 1 + szA xs := rfl
    omega
  | obj kvs =>
    left
    rw [jsSpread] at h
    have h1 := mem_szL h
    have h2 : szL kvs.toList = szO kvs := szL_toList kvs
    have h3 : sz (Json.obj kvs) = 1 + szO kvs := rfl
    omega

theorem mem_jsSpread_strs {k : String} {v j : Json} (h : (k, v) ∈ jsSpread j) :
    strsOf v ⊆ strsOf j := by
  exact (mem_strsL h).trans (strsL_jsSpread_sub j)

/-! ## Lemmas: `setProp`, `mergeProps`, `removeKey`, lookups -/

theorem szL_setProp (l : List (String × Json)) (k : String) (v : Json) :
    szL (setProp l k v) ≤ szL l + 2 + sz v := by
  induction l with
  | nil => simp [setProp, szL]
  | cons p tl ih =>
    obtain ⟨k', v'⟩ := p
    rw [setProp]
    by_cases hk : (k' == k) = true
    · simp only [hk, if_true]
      simp only [szL, List.foldr] at *
      omega
    · simp only [hk, if_false, Bool.false_eq_true]
      simp only [szL, List.foldr] at *
      omega

theorem strsL_setProp (l : List (String × Json)) (k : String) (v : Json) :
    strsL (setProp l k v) ⊆ strsL l ∪ strsOf v := by
  induction l with
  | nil =>
    simp only [setProp, strsL, List.foldr]
    intro x hx
    rcases Finset.mem_union.mp hx with h | h
    · exact Finset.mem_union_right _ h
    · exact absurd h (Finset.not_mem_empty x)
  | cons p tl ih =>
    obtain ⟨k', v'⟩ := p
    rw [setProp]
    by_cases hk : (k' == k) = true
    · simp only [hk, if_true]
      intro x hx
      have hx' : x ∈ strsOf v ∪ strsL tl := hx
      rcases Finset.mem_union.mp hx' with h | h
      · exact Finset.mem_union_right _ h
      · refine Finset.mem_union_left _ ?_
        have : strsL tl ⊆ strsL ((k', v') :: tl) := by
          simp only [strsL, List.foldr]
          exact Finset.subset_union_right
        exact this h
    · simp only [hk, if_false, Bool.false_eq_true]
      intro x hx
      have hx' : x ∈ strsOf v' ∪ strsL (setProp tl k v) := hx
      rcases Finset.mem_union.mp hx' with h | h
      · refine Finset.mem_union_left _ ?_
        simp only [strsL, List.foldr]
        exact Finset.mem_union_left _ h
      · rcases Finset.mem_union.mp (ih h) with h2 | h2
        · refine Finset.mem_union_left _ ?_
          simp only [strsL, List.foldr]
          exact Finset.mem_union_right _ h2
        · exact Finset.mem_union_right _ h2

theorem szL_mergeProps (a b : List (String × Json)) :
    szL (mergeProps a b) ≤ szL a + szL b := by
  induction b generalizing a with
  | nil => simp [mergeProps, szL]
  | cons p tl ih =>
    obtain ⟨k, v⟩ := p
    have h1 : mergeProps a ((k, v) :: tl) = mergeProps (setProp a k v) tl := rfl
    rw [h1]
    have h2 := ih (setProp a k v)
    have h3 := szL_setProp a k v
    have h4 : szL ((k, v) :: tl) = 2 + sz v + szL tl := rfl
    omega

theorem strsL_mergeProps (a b : List (String × Json)) :
    strsL (mergeProps a b) ⊆ strsL a ∪ strsL b := by
  induction b generalizing a with
  | nil =>
    intro x hx
    exact Finset.mem_union_left _ hx
  | cons p tl ih =>
    obtain ⟨k, v⟩ := p
    have h1 : mergeProps a ((k, v) :: tl) = mergeProps (setProp a k v) tl := rfl
    rw [h1]
    refine (ih (setProp a k v)).trans ?_
    intro x hx
    rcases Finset.mem_union.mp hx with h | h
    · rcases Finset.mem_union.mp (strsL_setProp a k v h) with h2 | h2
      · exact Finset.mem_union_left _ h2
      · refine Finset.mem_union_right _ ?_
        simp only [strsL, List.foldr]
        exact Finset.mem_union_left _ h2
    · refine Finset.mem_union_right _ ?_
      simp only [strsL, List.foldr]
      exact Finset.mem_union_right _ h

theorem removeKey_cons (p : String × Json) (tl : List (String × Json)) (k : String) :
    removeKey (p :: tl) k =
      if (p.1 != k) = true then p :: removeKey tl k else removeKey tl k := by
  rw [removeKey, List.filter_cons, removeKey]

theorem szL_removeKey (l : List (String × Json)) (k : String) :
    szL (removeKey l k) ≤ szL l := by
  induction l with
  | nil => simp [removeKey, szL]
  | cons p tl ih =>
    rw [removeKey_cons]
    by_cases h : (p.1 != k) = true
    · rw [if_pos h]
      simp only [szL, List.foldr] at *
      omega
    · rw [if_neg h]
      simp only [szL, List.foldr] at *
      omega

theorem strsL_removeKey (l : List (String × Json)) (k : String) :
    strsL (removeKey l k) ⊆ strsL l := by
  induction l with
  | nil => simp [removeKey, szL]
  | cons p tl ih =>
    rw [removeKey_cons]
    by_cases h : (p.1 != k) = true
    · rw [if_pos h]
      intro x hx
      have hx' : x ∈ strsOf p.2 ∪ strsL (removeKey tl k) := hx
      simp only [strsL, List.foldr]
      rcases Finset.mem_union.mp hx' with h2 | h2
      · exact Finset.mem_union_left _ h2
      · exact Finset.mem_union_right _ (ih h2)
    · rw [if_neg h]
      refine ih.trans ?_
      simp only [strsL, List.foldr]
      exact Finset.subset_union_right

theorem lookupKvs_mem {l : List (String × Json)} {k : String} {v : Json}
    (h : lookupKvs l k = some v) : ∃ k', (k', v) ∈ l := by
  rw [lookupKvs] at h
  rcases hf : l.find? (fun p => p.1 == k) with _ | p
  · rw [hf] at h; cases h
  · rw [hf] at h
    obtain ⟨k', v'⟩ := p
    simp only [Option.map] at h
    cases h
    exact ⟨k', List.mem_of_find?_eq_some hf⟩

theorem getTruthy_mem {l : List (String × Json)} {k : String} {v : Json}
    (h : getTruthy l k = some v) : ∃ k', (k', v) ∈ l := by
  rw [getTruthy] at h
  split at h
  · rename_i v' hl
    split at h
    · cases h
      exact lookupKvs_mem hl
    · cases h
  · cases h

/-! ## Lemmas: `refWalk` returns a subvalue of the document -/

theorem arrIndex_cases {xs : List Json} {k : String} {v : Json}
    (h : arrIndex xs k = some v) : v ∈ xs ∨ v = .num xs.length := by
  rw [arrIndex] at h
  split at h
  · cases h
    right
    rfl
  · split at h
    · split at h
      · left
        exact List.getElem?_mem h
      · cases h
    · cases h

theorem refWalk_sub {ref : String} :
    ∀ (segs : List String) (j v : Json),
      refWalk ref (some j) segs = .ok (some v) →
      strsOf v ⊆ strsOf j ∧ sz v ≤ sz j := by
  intro segs
  induction segs with
  | nil =>
    intro j v h
    rw [refWalk] at h
    cases h
    exact ⟨subset_rfl, le_rfl⟩
  | cons seg rest ih =>
    intro j v h
    cases j with
    | null => rw [refWalk] at h; cases h
    | bool b => rw [refWalk] at h; cases h
    | num n => rw [refWalk] at h; cases h
    | str s => rw [refWalk] at h; cases h
    | arr xs =>
      rw [refWalk] at h
      rcases hidx : arrIndex xs.toList (decodeSegment seg) with _ | u
      · rw [hidx] at h
        exfalso
        rcases rest with _ | ⟨s2, rest2⟩
        · rw [refWalk] at h; cases h
        · rw [refWalk] at h; cases h
      · rw [hidx] at h
        have hu := ih u v h
        rcases arrIndex_cases hidx with hm | hlen
        · constructor
          · refine hu.1.trans ?_
            refine (mem_strsLA hm).trans ?_
            rw [strsLA_toList, strsOf]
          · refine hu.2.trans ?_
            have h1 := mem_szLA hm
            have h2 : szLA xs.toList = szA xs := szLA_toList xs
            have h3 : sz (Json.arr xs) = 1 + szA xs := rfl
            omega
        · constructor
          · refine hu.1.trans ?_
            rw [hlen, strsOf]
            exact Finset.empty_subset _
          · refine hu.2.trans ?_
            rw [hlen]
            exact sz_pos _
    | obj kvs =>
      rw [refWalk] at h
      rcases hlk : lookupKvs kvs.toList (decodeSegment seg) with _ | u
      · rw [hlk] at h
        exfalso
        rcases rest with _ | ⟨s2, rest2⟩
        · rw [refWalk] at h; cases h
        · rw [refWalk] at h; cases h
      · rw [hlk] at h
        have hu := ih u v h
        obtain ⟨k', hmem⟩ := lookupKvs_mem hlk
        constructor
        · refine hu.1.trans ?_
          refine (mem_strsL hmem).trans ?_
          rw [strsL_toList, strsOf]
        · refine hu.2.trans ?_
          have h1 := mem_szL hmem
          have h2 : szL kvs.toList = szO kvs := szL_toList kvs
          have h3 : sz (Json.obj kvs) = 1 + szO kvs := rfl
          omega

theorem resolveRef_sub {spec : Json} {r : String} {v : Json}
    (h : resolveRef spec r = .ok v) : strsOf v ⊆ strsOf spec ∧ sz v ≤ sz spec := by
  rw [resolveRef] at h
  split at h
  · cases h
  · split at h
    · cases h
    · cases h
    · rename_i w heq
      cases h
      exact refWalk_sub _ spec _ heq

/-! ## Lemmas: the fuel bound decreases at every recursive call -/

/-- Overapproximation of the fragments handed to recursive calls when the
field at `k` is processed: the field's value and its own entry values. -/
def keyArgs (kvs : List (String × Json)) (k : String) : List Json :=
  match getTruthy kvs k with
  | none => []
  | some v => v :: (jsSpread v).map (fun p => p.2)

theorem mem_keyArgs_head {kvs : List (String × Json)} {k : String} {v : Json}
    (h : getTruthy kvs k = some v) : v ∈ keyArgs kvs k := by
  rw [keyArgs, h]
  exact List.mem_cons_self _ _

theorem mem_keyArgs_spread {kvs : List (String × Json)} {k k2 : String} {p w : Json}
    (h : getTruthy kvs k = some p) (h2 : (k2, w) ∈ jsSpread p) : w ∈ keyArgs kvs k := by
  rw [keyArgs, h]
  exact List.mem_cons_of_mem _ (List.mem_map_of_mem _ h2)

theorem keyArgs_strs {schema : Json} {k : String} {v : Json}
    (hp : isPrim schema = false) (hv : v ∈ keyArgs (jsSpread schema) k) :
    strsOf v ⊆ strsOf schema := by
  rw [keyArgs] at hv
  rcases hg : getTruthy (jsSpread schema) k with _ | p
  · rw [hg] at hv; cases hv
  · rw [hg] at hv
    rcases List.mem_cons.mp hv with h | h
    · subst h
      obtain ⟨k', hmem⟩ := getTruthy_mem hg
      exact (mem_strsL hmem).trans (strsL_jsSpread_sub schema)
    · obtain ⟨q, hq, hq2⟩ := List.mem_map.mp h
      obtain ⟨k', hmem⟩ := getTruthy_mem hg
      have hps : strsOf p ⊆ strsOf schema :=
        (mem_strsL hmem).trans (strsL_jsSpread_sub schema)
      have : strsOf v ⊆ strsOf p := by
        obtain ⟨qk, qv⟩ := q
        cases hq2
        exact mem_jsSpread_strs hq
      exact this.trans hps

theorem keyArgs_sz {schema : Json} {k : String} {v : Json}
    (hp : isPrim schema = false) (hv : v ∈ keyArgs (jsSpread schema) k) :
    sz v < sz schema := by
  have hbase : szL (jsSpread schema) + 1 = sz schema := szL_jsSpread_of_nonPrim hp
  rw [keyArgs] at hv
  rcases hg : getTruthy (jsSpread schema) k with _ | p
  · rw [hg] at hv; cases hv
  · rw [hg] at hv
    obtain ⟨k', hmem⟩ := getTruthy_mem hg
    have hpz : 2 + sz p ≤ szL (jsSpread schema) := mem_szL hmem
    rcases List.mem_cons.mp hv with h | h
    · subst h; omega
    · obtain ⟨q, hq, hq2⟩ := List.mem_map.mp h
      obtain ⟨qk, qv⟩ := q
      cases hq2
      show sz qv < sz schema
      have hqp := sz_pos p
      rcases mem_jsSpread_sz hq with h2 | h2 <;> omega

theorem fuelFor_lt_of_strs_sz {spec v schema : Json} {visited : Finset String}
    (hsub : strsOf v ⊆ strsOf schema) (hsz : sz v < sz schema) :
    fuelFor spec v visited < fuelFor spec schema visited := by
  rw [fuelFor, fuelFor]
  have hcard : ((strsOf spec ∪ strsOf v) \ visited).card ≤
      ((strsOf spec ∪ strsOf schema) \ visited).card :=
    Finset.card_le_card
      (Finset.sdiff_subset_sdiff (Finset.union_subset_union_right hsub) subset_rfl)
  have hmul := Nat.mul_le_mul_right (4 * sz spec + 1) hcard
  omega

/-- Decrease for the recursive calls performed while resolving the nested
fields of a non-reference fragment. -/
theorem fuelFor_lt_branch {spec schema : Json} {visited : Finset String} {k : String}
    {v : Json} (hp : isPrim schema = false) (hv : v ∈ keyArgs (jsSpread schema) k) :
    fuelFor spec v visited < fuelFor spec schema visited :=
  fuelFor_lt_of_strs_sz (keyArgs_strs hp hv) (keyArgs_sz hp hv)

/-- Decrease for the recursive call on the merged fragment after a
successful pointer resolution: the pointer string joins the visited set. -/
theorem fuelFor_lt_ref {spec schema target : Json} {visited : Finset String} {r : String}
    (href : refOf schema = some (.str r)) (hvis : r ∉ visited)
    (htgt : resolveRef spec r = .ok target) :
    fuelFor spec
      (.obj (JObj.ofList (mergeProps (jsSpread target) (removeKey (jsSpread schema) "$ref"))))
      (insert r visited) <
    fuelFor spec schema visited := by
  obtain ⟨kvs, rfl⟩ : ∃ kvs, schema = Json.obj kvs := by
    cases schema with
    | obj kvs => exact ⟨kvs, rfl⟩
    | null => simp [refOf] at href
    | bool b => simp [refOf] at href
    | num n => simp [refOf] at href
    | str s => simp [refOf] at href
    | arr xs => simp [refOf] at href
  rw [refOf] at href
  -- the pointer string occurs among the fragment's string values
  have hrs : r ∈ strsOf (Json.obj kvs) := by
    obtain ⟨k', hmem⟩ := getTruthy_mem href
    have : strsOf (Json.str r) ⊆ strsL kvs.toList := mem_strsL hmem
    have hr : r ∈ strsOf (Json.str r) := by
      rw [strsOf]
      exact Finset.mem_insert_self _ _
    have h2 := this hr
    rw [strsL_toList] at h2
    exact h2
  set merged : Json :=
    .obj (JObj.ofList (mergeProps (jsSpread target) (removeKey (jsSpread (Json.obj kvs)) "$ref")))
    with hmerged
  have hsub : strsOf merged ⊆ strsOf spec ∪ strsOf (Json.obj kvs) := by
    rw [hmerged, strsOf_obj_ofList]
    refine (strsL_mergeProps _ _).trans ?_
    intro x hx
    rcases Finset.mem_union.mp hx with h | h
    · exact Finset.mem_union_left _ (((strsL_jsSpread_sub target).trans (resolveRef_sub htgt).1) h)
    · exact Finset.mem_union_right _
        (((strsL_removeKey _ _).trans (strsL_jsSpread_sub _)) h)
  have hszm : sz merged ≤ 4 * sz spec + sz (Json.obj kvs) := by
    rw [hmerged, sz_obj_ofList]
    have h1 := szL_mergeProps (jsSpread target) (removeKey (jsSpread (Json.obj kvs)) "$ref")
    have h2 := szL_removeKey (jsSpread (Json.obj kvs)) "$ref"
    have h3 := szL_jsSpread_le target
    have h4 : szL (jsSpread (Json.obj kvs)) + 1 = sz (Json.obj kvs) :=
      szL_jsSpread_of_nonPrim rfl
    have h5 : sz target ≤ sz spec := (resolveRef_sub htgt).2
    omega
  rw [fuelFor, fuelFor]
  have hrin : r ∈ (strsOf spec ∪ strsOf (Json.obj kvs)) \ visited :=
    Finset.mem_sdiff.mpr ⟨Finset.mem_union_right _ hrs, hvis⟩
  have hsubset : (strsOf spec ∪ strsOf merged) \ insert r visited ⊆
      ((strsOf spec ∪ strsOf (Json.obj kvs)) \ visited).erase r := by
    intro x hx
    obtain ⟨hx1, hx2⟩ := Finset.mem_sdiff.mp hx
    have hxr : x ≠ r := fun he => hx2 (he ▸ Finset.mem_insert_self r visited)
    have hxv : x ∉ visited := fun hv => hx2 (Finset.mem_insert_of_mem hv)
    refine Finset.mem_erase.mpr ⟨hxr, Finset.mem_sdiff.mpr ⟨?_, hxv⟩⟩
    rcases Finset.mem_union.mp hx1 with h | h
    · exact Finset.mem_union_left _ h
    · exact hsub h
  have hcard : ((strsOf spec ∪ strsOf merged) \ insert r visited).card ≤
      ((strsOf spec ∪ strsOf (Json.obj kvs)) \ visited).card - 1 := by
    have := Finset.card_le_card hsubset
    rwa [Finset.card_erase_of_mem hrin] at this
  have hpos : 1 ≤ ((strsOf spec ∪ strsOf (Json.obj kvs)) \ visited).card :=
    Finset.card_pos.mpr ⟨r, hrin⟩
  set c := ((strsOf spec ∪ strsOf (Json.obj kvs)) \ visited).card with hc
  set cm := ((strsOf spec ∪ strsOf merged) \ insert r visited).card with hcm
  have hmul : cm * (4 * sz spec + 1) ≤ (c - 1) * (4 * sz spec + 1) :=
    Nat.mul_le_mul_right _ hcard
  have hexp : (c - 1) * (4 * sz spec + 1) + (4 * sz spec + 1) = c * (4 * sz spec + 1) := by
    have : c - 1 + 1 = c := by omega
    calc (c - 1) * (4 * sz spec + 1) + (4 * sz spec + 1)
        = (c - 1 + 1) * (4 * sz spec + 1) := by ring
      _ = c * (4 * sz spec + 1) := by rw [this]
  omega

/-! ## Lemmas: congruence of one resolution step in its recursive calls -/

theorem exceptMapM_congr {α β : Type} (l : List α) (f g : α → Except String β)
    (h : ∀ a ∈ l, f a = g a) : l.mapM f = l.mapM g := by
  induction l with
  | nil => rfl
  | cons a tl ih =>
    rw [List.mapM_cons, List.mapM_cons, h a (List.mem_cons_self a tl),
      ih (fun b hb => h b (List.mem_cons_of_mem a hb))]

theorem lookupKvs_setProp_ne (l : List (String × Json)) (k k' : String) (v : Json)
    (h : k' ≠ k) : lookupKvs (setProp l k v) k' = lookupKvs l k' := by
  have hkk : (k == k') = false := by
    simp only [beq_eq_false_iff_ne]
    exact fun he => h he.symm
  induction l with
  | nil =>
    simp [setProp, lookupKvs, List.find?, hkk]
  | cons p tl ih =>
    obtain ⟨k2, v2⟩ := p
    rw [setProp]
    by_cases h2 : (k2 == k) = true
    · rw [if_pos h2]
      have hk2 : k2 = k := by simpa using h2
      subst hk2
      simp [lookupKvs, List.find?, hkk]
    · rw [if_neg h2]
      by_cases h3 : (k2 == k') = true
      · simp [lookupKvs, List.find?, h3]
      · simp only [lookupKvs, List.find?] at *
        rw [Bool.not_eq_true] at h3
        rw [h3]
        exact ih

theorem getTruthy_setProp_ne (l : List (String × Json)) (k k' : String) (v : Json)
    (h : k' ≠ k) : getTruthy (setProp l k v) k' = getTruthy l k' := by
  rw [getTruthy, getTruthy, lookupKvs_setProp_ne l k k' v h]

theorem keyArgs_setProp_ne (l : List (String × Json)) (k k' : String) (v : Json)
    (h : k' ≠ k) : keyArgs (setProp l k v) k' = keyArgs l k' := by
  rw [keyArgs, keyArgs, getTruthy_setProp_ne l k k' v h]

/-- Shape of a step's successful result: the entry list is unchanged or a
single property assignment at the step's own key. -/
def stepShape (key : String) (kvs kvs' : List (String × Json)) : Prop :=
  kvs' = kvs ∨ ∃ v, kvs' = setProp kvs key v

theorem keyArgs_of_stepShape {key : String} {kvs kvs' : List (String × Json)}
    (h : stepShape key kvs kvs') (k' : String) (hne : k' ≠ key) :
    keyArgs kvs' k' = keyArgs kvs k' := by
  rcases h with rfl | ⟨v, rfl⟩
  · rfl
  · exact keyArgs_setProp_ne kvs key k' v hne

theorem stepProperties_shape {rec : Json → Except String Json}
    {kvs kvs' : List (String × Json)} (h : stepProperties rec kvs = .ok kvs') :
    stepShape "properties" kvs kvs' := by
  rw [stepProperties] at h
  split at h
  · cases h; exact Or.inl rfl
  · split at h
    · cases h
    · cases h; exact Or.inr ⟨_, rfl⟩

theorem stepItems_shape {rec : Json → Except String Json}
    {kvs kvs' : List (String × Json)} (h : stepItems rec kvs = .ok kvs') :
    stepShape "items" kvs kvs' := by
  rw [stepItems] at h
  split at h
  · cases h; exact Or.inl rfl
  · split at h
    · cases h
    · cases h; exact Or.inr ⟨_, rfl⟩
  · split at h
    · cases h
    · cases h; exact Or.inr ⟨_, rfl⟩

theorem stepAdditional_shape {rec : Json → Except String Json}
    {kvs kvs' : List (String × Json)} (h : stepAdditional rec kvs = .ok kvs') :
    stepShape "additionalProperties" kvs kvs' := by
  rw [stepAdditional] at h
  split at h
  · split at h
    · cases h
    · cases h; exact Or.inr ⟨_, rfl⟩
  · split at h
    · cases h
    · cases h; exact Or.inr ⟨_, rfl⟩
  · cases h; exact Or.inl rfl

theorem stepComp_shape {key : String} {rec : Json → Except String Json}
    {kvs kvs' : List (String × Json)} (h : stepComp key rec kvs = .ok kvs') :
    stepShape key kvs kvs' := by
  rw [stepComp] at h
  split at h
  · cases h; exact Or.inl rfl
  · split at h
    · cases h
    · cases h; exact Or.inr ⟨_, rfl⟩
  · cases h

theorem stepNot_shape {rec : Json → Except String Json}
    {kvs kvs' : List (String × Json)} (h : stepNot rec kvs = .ok kvs') :
    stepShape "not" kvs kvs' := by
  rw [stepNot] at h
  split at h
  · cases h; exact Or.inl rfl
  · split at h
    · cases h
    · cases h; exact Or.inr ⟨_, rfl⟩

theorem stepProperties_congr {rec₁ rec₂ : Json → Except String Json}
    {kvs : List (String × Json)}
    (h : ∀ v ∈ keyArgs kvs "properties", rec₁ v = rec₂ v) :
    stepProperties rec₁ kvs = stepProperties rec₂ kvs := by
  simp only [stepProperties]
  split
  · rfl
  · rename_i p hg
    have hm : (jsSpread p).mapM (fun q => (rec₁ q.2).map (fun v => (q.1, v)))
        = (jsSpread p).mapM (fun q => (rec₂ q.2).map (fun v => (q.1, v))) := by
      apply exceptMapM_congr
      intro q hq
      obtain ⟨qk, qv⟩ := q
      rw [h qv (mem_keyArgs_spread hg hq)]
    rw [hm]

theorem mem_spread_arr {a : Json} {xs : JArr} (ha : a ∈ xs.toList) :
    ∃ k2, (k2, a) ∈ jsSpread (Json.arr xs) := by
  have hmm : a ∈ (arrEntries 0 xs.toList).map (fun p => p.2) := by
    rw [arrEntries_map_snd]
    exact ha
  obtain ⟨q, hq, hq2⟩ := List.mem_map.mp hmm
  obtain ⟨qk, qv⟩ := q
  cases hq2
  exact ⟨qk, hq⟩

theorem stepItems_congr {rec₁ rec₂ : Json → Except String Json}
    {kvs : List (String × Json)}
    (h : ∀ v ∈ keyArgs kvs "items", rec₁ v = rec₂ v) :
    stepItems rec₁ kvs = stepItems rec₂ kvs := by
  simp only [stepItems]
  split
  · rfl
  · rename_i xs hg
    have hm : xs.toList.mapM rec₁ = xs.toList.mapM rec₂ := by
      apply exceptMapM_congr
      intro a ha
      obtain ⟨k2, hk2⟩ := mem_spread_arr ha
      exact h a (mem_keyArgs_spread hg hk2)
    rw [hm]
  · rename_i i hnotarr hg
    rw [h i (mem_keyArgs_head hg)]

theorem stepAdditional_congr {rec₁ rec₂ : Json → Except String Json}
    {kvs : List (String × Json)}
    (h : ∀ v ∈ keyArgs kvs "additionalProperties", rec₁ v = rec₂ v) :
    stepAdditional rec₁ kvs = stepAdditional rec₂ kvs := by
  simp only [stepAdditional]
  split
  · rename_i xs hg
    rw [h (.arr xs) (mem_keyArgs_head hg)]
  · rename_i fs hg
    rw [h (.obj fs) (mem_keyArgs_head hg)]
  · rfl

theorem stepComp_congr {key : String} {rec₁ rec₂ : Json → Except String Json}
    {kvs : List (String × Json)}
    (h : ∀ v ∈ keyArgs kvs key, rec₁ v = rec₂ v) :
    stepComp key rec₁ kvs = stepComp key rec₂ kvs := by
  simp only [stepComp]
  split
  · rfl
  · rename_i xs hg
    have hm : xs.toList.mapM rec₁ = xs.toList.mapM rec₂ := by
      apply exceptMapM_congr
      intro a ha
      obtain ⟨k2, hk2⟩ := mem_spread_arr ha
      exact h a (mem_keyArgs_spread hg hk2)
    rw [hm]
  · rfl

theorem stepNot_congr {rec₁ rec₂ : Json → Except String Json}
    {kvs : List (String × Json)}
    (h : ∀ v ∈ keyArgs kvs "not", rec₁ v = rec₂ v) :
    stepNot rec₁ kvs = stepNot rec₂ kvs := by
  simp only [stepNot]
  split
  · rfl
  · rename_i nv hg
    rw [h nv (mem_keyArgs_head hg)]

theorem branchStep_congr {rec₁ rec₂ : Json → Except String Json}
    {base : List (String × Json)}
    (h : ∀ k, ∀ v ∈ keyArgs base k, rec₁ v = rec₂ v) :
    branchStep rec₁ base = branchStep rec₂ base := by
  simp only [branchStep]
  rw [stepProperties_congr (h "properties")]
  split
  · rfl
  · rename_i r1 heq1
    have hk1 : ∀ k, k ≠ "properties" → keyArgs r1 k = keyArgs base k :=
      fun k hk => keyArgs_of_stepShape (stepProperties_shape heq1) k hk
    rw [stepItems_congr (by rw [hk1 "items" (by decide)]; exact h "items")]
    split
    · rfl
    · rename_i r2 heq2
      have hk2 : ∀ k, k ≠ "properties" → k ≠ "items" → keyArgs r2 k = keyArgs base k :=
        fun k hkp hki =>
          (keyArgs_of_stepShape (stepItems_shape heq2) k hki).trans (hk1 k hkp)
      rw [stepAdditional_congr
        (by rw [hk2 "additionalProperties" (by decide) (by decide)]
            exact h "additionalProperties")]
      split
      · rfl
      · rename_i r3 heq3
        have hk3 : ∀ k, k ≠ "properties" → k ≠ "items" → k ≠ "additionalProperties" →
            keyArgs r3 k = keyArgs base k :=
          fun k hkp hki hka =>
            (keyArgs_of_stepShape (stepAdditional_shape heq3) k hka).trans (hk2 k hkp hki)
        rw [stepComp_congr
          (by rw [hk3 "allOf" (by decide) (by decide) (by decide)]; exact h "allOf")]
        split
        · rfl
        · rename_i r4 heq4
          have hk4 : ∀ k, k ≠ "properties" → k ≠ "items" → k ≠ "additionalProperties" →
              k ≠ "allOf" → keyArgs r4 k = keyArgs base k :=
            fun k hkp hki hka hk5 =>
              (keyArgs_of_stepShape (stepComp_shape heq4) k hk5).trans (hk3 k hkp hki hka)
          rw [stepComp_congr
            (by rw [hk4 "oneOf" (by decide) (by decide) (by decide) (by decide)]
                exact h "oneOf")]
          split
          · rfl
          · rename_i r5 heq5
            have hk5 : ∀ k, k ≠ "properties" → k ≠ "items" → k ≠ "additionalProperties" →
                k ≠ "allOf" → k ≠ "oneOf" → keyArgs r5 k = keyArgs base k :=
              fun k hkp hki hka h5 h6 =>
                (keyArgs_of_stepShape (stepComp_shape heq5) k h6).trans
                  (hk4 k hkp hki hka h5)
            rw [stepComp_congr
              (by rw [hk5 "anyOf" (by decide) (by decide) (by decide) (by decide) (by decide)]
                  exact h "anyOf")]
            split
            · rfl
            · rename_i r6 heq6
              have hk6 : ∀ k, k ≠ "properties" → k ≠ "items" →
                  k ≠ "additionalProperties" → k ≠ "allOf" → k ≠ "oneOf" → k ≠ "anyOf" →
                  keyArgs r6 k = keyArgs base k :=
                fun k hkp hki hka h5 h6 h7 =>
                  (keyArgs_of_stepShape (stepComp_shape heq6) k h7).trans
                    (hk5 k hkp hki hka h5 h6)
              rw [stepNot_congr
                (by rw [hk6 "not" (by decide) (by decide) (by decide) (by decide)
                      (by decide) (by decide)]
                    exact h "not")]

theorem resolveStep_congr {spec schema : Json} {visited : Finset String}
    {rec₁ rec₂ : Json → Finset String → Except String Json}
    (H : ∀ v vis, fuelFor spec v vis < fuelFor spec schema visited →
      rec₁ v vis = rec₂ v vis) :
    resolveStep spec rec₁ schema visited = resolveStep spec rec₂ schema visited := by
  simp only [resolveStep]
  by_cases hp : isPrim schema = true
  · rw [if_pos hp, if_pos hp]
  · rw [if_neg hp, if_neg hp]
    have hp' : isPrim schema = false := by
      rw [Bool.not_eq_true] at hp
      exact hp
    split
    · rename_i r href
      by_cases hvis : r ∈ visited
      · rw [if_pos hvis, if_pos hvis]
      · rw [if_neg hvis, if_neg hvis]
        split
        · rfl
        · rename_i target htgt
          rw [H _ (insert r visited) (fuelFor_lt_ref href hvis htgt)]
    · rfl
    · exact branchStep_congr (fun k v hv => H v visited (fuelFor_lt_branch hp' hv))

/-! ## The stabilisation theorem: the recursion depth of `resolveSchema` is
bounded by `fuelFor`, so the source recursion terminates -/

theorem resolveSchemaF_prim {spec j : Json} {vis : Finset String}
    (hp : isPrim j = true) : ∀ m, resolveSchemaF spec m j vis = .ok j := by
  intro m
  cases m with
  | zero => rw [resolveSchemaF, if_pos hp]
  | succ m' => rw [resolveSchemaF, resolveStep, if_pos hp]

theorem fuelFor_pos (spec schema : Json) (visited : Finset String) :
    1 ≤ fuelFor spec schema visited := by
  rw [fuelFor]
  have := sz_pos schema
  omega

theorem resolveSchemaF_stab (spec : Json) :
    ∀ n schema visited, fuelFor spec schema visited ≤ n →
      resolveSchemaF spec n schema visited = resolveSchema spec schema visited := by
  intro n
  induction n using Nat.strong_induction_on with
  | _ n ih =>
    intro schema visited hn
    by_cases hp : isPrim schema = true
    · rw [resolveSchemaF_prim hp, resolveSchema, resolveSchemaF_prim hp]
    · have h1 : 1 ≤ fuelFor spec schema visited := fuelFor_pos spec schema visited
      obtain ⟨n', rfl⟩ : ∃ n', n = n' + 1 := ⟨n - 1, by omega⟩
      obtain ⟨m, hm⟩ : ∃ m, fuelFor spec schema visited = m + 1 :=
        ⟨fuelFor spec schema visited - 1, by omega⟩
      rw [resolveSchema, hm, resolveSchemaF, resolveSchemaF]
      apply resolveStep_congr
      intro v vis hlt
      rw [hm] at hlt
      have hm' : m < n' + 1 := by omega
      rw [ih n' (by omega) v vis (by omega), ih m (by omega) v vis (by omega)]

/-- The fixpoint equation of `resolveSchema`: the function satisfies the
one-step unfolding with itself in recursive position, i.e. it is the
function computed by the source's unbounded recursion. -/
theorem resolveSchema_unfold (spec schema : Json) (visited : Finset String) :
    resolveSchema spec schema visited =
      resolveStep spec (fun v vis => resolveSchema spec v vis) schema visited := by
  by_cases hp : isPrim schema = true
  · rw [resolveSchema, resolveSchemaF_prim hp, resolveStep, if_pos hp]
  · have h1 : 1 ≤ fuelFor spec schema visited := fuelFor_pos spec schema visited
    obtain ⟨m, hm⟩ : ∃ m, fuelFor spec schema visited = m + 1 :=
      ⟨fuelFor spec schema visited - 1, by omega⟩
    rw [resolveSchema, hm, resolveSchemaF]
    apply resolveStep_congr
    intro v vis hlt
    rw [hm] at hlt
    exact resolveSchemaF_stab spec m v vis (by omega)

/-! ## Well-formed fragments: composition keywords honour the `Schema` type

The TypeScript interface `Schema` declares `allOf`/`oneOf`/`anyOf` as
arrays. A fragment that violates this (a truthy non-array value under one
of those keys) makes the source's `.map` call raise a `TypeError`, which is
caught only by an enclosing `$ref` merge. `wfComp` is exactly the
type-conformance of a fragment for these keywords, hereditarily. -/

def compKeyOk (kvs : List (String × Json)) (k : String) : Bool :=
  match getTruthy kvs k with
  | none => true
  | some (.arr _) => true
  | some _ => false

def compOk (kvs : List (String × Json)) : Bool :=
  compKeyOk kvs "allOf" && compKeyOk kvs "oneOf" && compKeyOk kvs "anyOf"

mutual

def wfComp : Json → Bool
  | .null => true
  | .bool _ => true
  | .num _ => true
  | .str _ => true
  | .arr xs => wfCompA xs
  | .obj kvs => compOk kvs.toList && wfCompO kvs

def wfCompA : JArr → Bool
  | .nil => true
  | .cons x xs => wfComp x && wfCompA xs

def wfCompO : JObj → Bool
  | .nil => true
  | .cons _ v xs => wfComp v && wfCompO xs

end

theorem wfComp_of_mem_toList {k : String} {v : Json} :
    ∀ (kvs : JObj), (k, v) ∈ kvs.toList → wfCompO kvs = true → wfComp v = true
  | .nil, h, _ => by cases h
  | .cons k2 v2 tl, h, hwf => by
    rw [wfCompO, Bool.and_eq_true] at hwf
    rcases List.mem_cons.mp h with h' | h'
    · cases h'; exact hwf.1
    · exact wfComp_of_mem_toList tl h' hwf.2

theorem wfComp_of_mem_arr {v : Json} :
    ∀ (xs : JArr), v ∈ xs.toList → wfCompA xs = true → wfComp v = true
  | .nil, h, _ => by cases h
  | .cons x tl, h, hwf => by
    rw [wfCompA, Bool.and_eq_true] at hwf
    rcases List.mem_cons.mp h with h' | h'
    · cases h'; exact hwf.1
    · exact wfComp_of_mem_arr tl h' hwf.2

theorem mem_charEntries_str {k : String} {v : Json} {cs : List Char} :
    ∀ i, (k, v) ∈ charEntries i cs → ∃ c, v = Json.str (String.mk [c]) := by
  induction cs with
  | nil => intro i h; cases h
  | cons c tl ih =>
    intro i h
    rcases List.mem_cons.mp h with h' | h'
    · cases h'; exact ⟨c, rfl⟩
    · exact ih (i + 1) h'

theorem wfComp_spread {k : String} {v j : Json}
    (h : (k, v) ∈ jsSpread j) (hwf : wfComp j = true) : wfComp v = true := by
  cases j with
  | null => cases h
  | bool b => cases h
  | num n => cases h
  | str s =>
    rw [jsSpread] at h
    obtain ⟨c, rfl⟩ := mem_charEntries_str 0 h
    rw [wfComp]
  | arr xs =>
    rw [jsSpread] at h
    have hm : v ∈ xs.toList := by
      have := List.mem_map_of_mem (fun p : String × Json => p.2) h
      rwa [arrEntries_map_snd] at this
    rw [wfComp] at hwf
    exact wfComp_of_mem_arr xs hm hwf
  | obj kvs =>
    rw [jsSpread] at h
    rw [wfComp, Bool.and_eq_true] at hwf
    exact wfComp_of_mem_toList kvs h hwf.2

theorem wfComp_keyArgs {schema : Json} {k : String} {v : Json}
    (hv : v ∈ keyArgs (jsSpread schema) k) (hwf : wfComp schema = true) :
    wfComp v = true := by
  rw [keyArgs] at hv
  rcases hg : getTruthy (jsSpread schema) k with _ | p
  · rw [hg] at hv; cases hv
  · rw [hg] at hv
    obtain ⟨k', hmem⟩ := getTruthy_mem hg
    have hp : wfComp p = true := wfComp_spread hmem hwf
    rcases List.mem_cons.mp hv with h | h
    · cases h; exact hp
    · obtain ⟨q, hq, hq2⟩ := List.mem_map.mp h
      obtain ⟨qk, qv⟩ := q
      cases hq2
      exact wfComp_spread hq hp

/-! Array fragments spread to decimal-indexed keys, so none of the schema
keywords is ever found on them. -/

theorem digitChar_isDigit {n : Nat} (h : n < 10) : (Nat.digitChar n).isDigit = true := by
  interval_cases n <;> decide

theorem natDigits_digits : ∀ (fuel n : Nat), ∀ c ∈ natDigits fuel n, c.isDigit = true := by
  intro fuel
  induction fuel with
  | zero => intro n c hc; cases hc
  | succ f ih =>
    intro n c hc
    rw [natDigits] at hc
    by_cases hn : n < 10
    · rw [if_pos hn] at hc
      rcases List.mem_cons.mp hc with h | h
      · subst h; exact digitChar_isDigit hn
      · cases h
    · rw [if_neg hn] at hc
      rcases List.mem_append.mp hc with h | h
      · exact ih (n / 10) c h
      · rcases List.mem_cons.mp h with h' | h'
        · subst h'; exact digitChar_isDigit (Nat.mod_lt n (by omega))
        · cases h'

theorem natToStr_ne {k : String} {c : Char} (hc : c ∈ k.data)
    (hnd : ¬c.isDigit = true) : ∀ m, natToStr m ≠ k := by
  intro m he
  apply hnd
  have : c ∈ (natToStr m).data := by rw [he]; exact hc
  exact natDigits_digits (m + 1) m c this

theorem lookupKvs_arrEntries_none {k : String} {c : Char} (hc : c ∈ k.data)
    (hnd : ¬c.isDigit = true) (l : List Json) :
    ∀ i, lookupKvs (arrEntries i l) k = none := by
  induction l with
  | nil => intro i; rfl
  | cons x xs ih =>
    intro i
    rw [arrEntries, lookupKvs, List.find?]
    have : (natToStr i == k) = false := by
      simp only [beq_eq_false_iff_ne]
      exact natToStr_ne hc hnd i
    rw [this]
    exact ih (i + 1)

theorem getTruthy_arrEntries_none {k : String} {c : Char} (hc : c ∈ k.data)
    (hnd : ¬c.isDigit = true) (l : List Json) (i : Nat) :
    getTruthy (arrEntries i l) k = none := by
  rw [getTruthy, lookupKvs_arrEntries_none hc hnd l i]

/-! ## Under type-conformant composition keywords, resolution never raises -/

theorem exceptMapM_ok {α β : Type} {l : List α} {f : α → Except String β}
    (h : ∀ a ∈ l, ∃ b, f a = .ok b) : ∃ ys, l.mapM f = .ok ys := by
  induction l with
  | nil => exact ⟨[], rfl⟩
  | cons a tl ih =>
    obtain ⟨b, hb⟩ := h a (List.mem_cons_self a tl)
    obtain ⟨ys, hys⟩ := ih (fun x hx => h x (List.mem_cons_of_mem a hx))
    refine ⟨b :: ys, ?_⟩
    rw [List.mapM_cons, hb, hys]
    rfl

theorem getTruthy_of_stepShape {key : String} {kvs kvs' : List (String × Json)}
    (h : stepShape key kvs kvs') (k' : String) (hne : k' ≠ key) :
    getTruthy kvs' k' = getTruthy kvs k' := by
  rcases h with rfl | ⟨v, rfl⟩
  · rfl
  · exact getTruthy_setProp_ne kvs key k' v hne

theorem compKeyOk_of_stepShape {key : String} {kvs kvs' : List (String × Json)}
    (h : stepShape key kvs kvs') (k' : String) (hne : k' ≠ key) :
    compKeyOk kvs' k' = compKeyOk kvs k' := by
  rw [compKeyOk, compKeyOk, getTruthy_of_stepShape h k' hne]

theorem stepProperties_ok (rec : Json → Except String Json)
    (kvs : List (String × Json))
    (hrec : ∀ v ∈ keyArgs kvs "properties", ∃ u, rec v = .ok u) :
    ∃ kvs', stepProperties rec kvs = .ok kvs' := by
  rw [stepProperties]
  split
  · exact ⟨kvs, rfl⟩
  · rename_i p hg
    have hq : ∀ q ∈ jsSpread p, ∃ u, ((rec q.2).map (fun v => (q.1, v))) = .ok u := by
      intro q hqm
      obtain ⟨qk, qv⟩ := q
      obtain ⟨u, hu⟩ := hrec qv (mem_keyArgs_spread hg hqm)
      exact ⟨(qk, u), by rw [hu]; rfl⟩
    obtain ⟨ys, hys⟩ := exceptMapM_ok hq
    rw [hys]
    exact ⟨_, rfl⟩

theorem stepItems_ok (rec : Json → Except String Json)
    (kvs : List (String × Json))
    (hrec : ∀ v ∈ keyArgs kvs "items", ∃ u, rec v = .ok u) :
    ∃ kvs', stepItems rec kvs = .ok kvs' := by
  rw [stepItems]
  split
  · exact ⟨kvs, rfl⟩
  · rename_i xs hg
    have hq : ∀ a ∈ xs.toList, ∃ u, rec a = .ok u := by
      intro a ha
      obtain ⟨k2, hk2⟩ := mem_spread_arr ha
      exact hrec a (mem_keyArgs_spread hg hk2)
    obtain ⟨ys, hys⟩ := exceptMapM_ok hq
    rw [hys]
    exact ⟨_, rfl⟩
  · rename_i i hnotarr hg
    obtain ⟨u, hu⟩ := hrec i (mem_keyArgs_head hg)
    rw [hu]
    exact ⟨_, rfl⟩

theorem stepAdditional_ok (rec : Json → Except String Json)
    (kvs : List (String × Json))
    (hrec : ∀ v ∈ keyArgs kvs "additionalProperties", ∃ u, rec v = .ok u) :
    ∃ kvs', stepAdditional rec kvs = .ok kvs' := by
  rw [stepAdditional]
  split
  · rename_i xs hg
    obtain ⟨u, hu⟩ := hrec (.arr xs) (mem_keyArgs_head hg)
    rw [hu]
    exact ⟨_, rfl⟩
  · rename_i fs hg
    obtain ⟨u, hu⟩ := hrec (.obj fs) (mem_keyArgs_head hg)
    rw [hu]
    exact ⟨_, rfl⟩
  · exact ⟨kvs, rfl⟩

theorem stepComp_ok (key : String) (rec : Json → Except String Json)
    (kvs : List (String × Json)) (hok : compKeyOk kvs key = true)
    (hrec : ∀ v ∈ keyArgs kvs key, ∃ u, rec v = .ok u) :
    ∃ kvs', stepComp key rec kvs = .ok kvs' := by
  rw [stepComp]
  split
  · exact ⟨kvs, rfl⟩
  · rename_i xs hg
    have hq : ∀ a ∈ xs.toList, ∃ u, rec a = .ok u := by
      intro a ha
      obtain ⟨k2, hk2⟩ := mem_spread_arr ha
      exact hrec a (mem_keyArgs_spread hg hk2)
    obtain ⟨ys, hys⟩ := exceptMapM_ok hq
    rw [hys]
    exact ⟨_, rfl⟩
  · rename_i v hnotarr hg
    exfalso
    rw [compKeyOk] at hok
    split at hok
    · rename_i hg2
      rw [hg2] at hg
      cases hg
    · rename_i xs hg2
      rw [hg2] at hg
      cases hg
      exact hnotarr xs rfl
    · cases hok

theorem stepNot_ok (rec : Json → Except String Json)
    (kvs : List (String × Json))
    (hrec : ∀ v ∈ keyArgs kvs "not", ∃ u, rec v = .ok u) :
    ∃ kvs', stepNot rec kvs = .ok kvs' := by
  rw [stepNot]
  split
  · exact ⟨kvs, rfl⟩
  · rename_i nv hg
    obtain ⟨u, hu⟩ := hrec nv (mem_keyArgs_head hg)
    rw [hu]
    exact ⟨_, rfl⟩

theorem branchStep_ok {rec : Json → Except String Json} {base : List (String × Json)}
    (hrec : ∀ k, ∀ v ∈ keyArgs base k, ∃ u, rec v = .ok u)
    (ha : compKeyOk base "allOf" = true)
    (ho : compKeyOk base "oneOf" = true)
    (hy : compKeyOk base "anyOf" = true) :
    ∃ j, branchStep rec base = .ok j := by
  obtain ⟨r1, h1⟩ := stepProperties_ok rec base (hrec "properties")
  have s1 := stepProperties_shape h1
  obtain ⟨r2, h2⟩ := stepItems_ok rec r1 (by
    rw [keyArgs_of_stepShape s1 "items" (by decide)]
    exact hrec "items")
  have s2 := stepItems_shape h2
  obtain ⟨r3, h3⟩ := stepAdditional_ok rec r2 (by
    rw [keyArgs_of_stepShape s2 "additionalProperties" (by decide),
      keyArgs_of_stepShape s1 "additionalProperties" (by decide)]
    exact hrec "additionalProperties")
  have s3 := stepAdditional_shape h3
  obtain ⟨r4, h4⟩ := stepComp_ok "allOf" rec r3
    (by
      rw [compKeyOk_of_stepShape s3 "allOf" (by decide),
        compKeyOk_of_stepShape s2 "allOf" (by decide),
        compKeyOk_of_stepShape s1 "allOf" (by decide)]
      exact ha)
    (by
      rw [keyArgs_of_stepShape s3 "allOf" (by decide),
        keyArgs_of_stepShape s2 "allOf" (by decide),
        keyArgs_of_stepShape s1 "allOf" (by decide)]
      exact hrec "allOf")
  have s4 := stepComp_shape h4
  obtain ⟨r5, h5⟩ := stepComp_ok "oneOf" rec r4
    (by
      rw [compKeyOk_of_stepShape s4 "oneOf" (by decide),
        compKeyOk_of_stepShape s3 "oneOf" (by decide),
        compKeyOk_of_stepShape s2 "oneOf" (by decide),
        compKeyOk_of_stepShape s1 "oneOf" (by decide)]
      exact ho)
    (by
      rw [keyArgs_of_stepShape s4 "oneOf" (by decide),
        keyArgs_of_stepShape s3 "oneOf" (by decide),
        keyArgs_of_stepShape s2 "oneOf" (by decide),
        keyArgs_of_stepShape s1 "oneOf" (by decide)]
      exact hrec "oneOf")
  have s5 := stepComp_shape h5
  obtain ⟨r6, h6⟩ := stepComp_ok "anyOf" rec r5
    (by
      rw [compKeyOk_of_stepShape s5 "anyOf" (by decide),
        compKeyOk_of_stepShape s4 "anyOf" (by decide),
        compKeyOk_of_stepShape s3 "anyOf" (by decide),
        compKeyOk_of_stepShape s2 "anyOf" (by decide),
        compKeyOk_of_stepShape s1 "anyOf" (by decide)]
      exact hy)
    (by
      rw [keyArgs_of_stepShape s5 "anyOf" (by decide),
        keyArgs_of_stepShape s4 "anyOf" (by decide),
        keyArgs_of_stepShape s3 "anyOf" (by decide),
        keyArgs_of_stepShape s2 "anyOf" (by decide),
        keyArgs_of_stepShape s1 "anyOf" (by decide)]
      exact hrec "anyOf")
  have s6 := stepComp_shape h6
  obtain ⟨r7, h7⟩ := stepNot_ok rec r6 (by
    rw [keyArgs_of_stepShape s6 "not" (by decide),
      keyArgs_of_stepShape s5 "not" (by decide),
      keyArgs_of_stepShape s4 "not" (by decide),
      keyArgs_of_stepShape s3 "not" (by decide),
      keyArgs_of_stepShape s2 "not" (by decide),
      keyArgs_of_stepShape s1 "not" (by decide)]
    exact hrec "not")
  refine ⟨.obj (JObj.ofList r7), ?_⟩
  rw [branchStep, h1]
  show (match stepItems rec r1 with
    | .error e => .error e
    | .ok r2 =>
      match stepAdditional rec r2 with
      | .error e => .error e
      | .ok r3 =>
        match stepComp "allOf" rec r3 with
        | .error e => .error e
        | .ok r4 =>
          match stepComp "oneOf" rec r4 with
          | .error e => .error e
          | .ok r5 =>
            match stepComp "anyOf" rec r5 with
            | .error e => .error e
            | .ok r6 =>
              match stepNot rec r6 with
              | .error e => .error e
              | .ok r7 => .ok (.obj (JObj.ofList r7))) = Except.ok (Json.obj (JObj.ofList r7))
  rw [h2]
  show (match stepAdditional rec r2 with
    | .error e => .error e
    | .ok r3 =>
      match stepComp "allOf" rec r3 with
      | .error e => .error e
      | .ok r4 =>
        match stepComp "oneOf" rec r4 with
        | .error e => .error e
        | .ok r5 =>
          match stepComp "anyOf" rec r5 with
          | .error e => .error e
          | .ok r6 =>
            match stepNot rec r6 with
            | .error e => .error e
            | .ok r7 => .ok (.obj (JObj.ofList r7))) = Except.ok (Json.obj (JObj.ofList r7))
  rw [h3]
  show (match stepComp "allOf" rec r3 with
    | .error e => .error e
    | .ok r4 =>
      match stepComp "oneOf" rec r4 with
      | .error e => .error e
      | .ok r5 =>
        match stepComp "anyOf" rec r5 with
        | .error e => .error e
        | .ok r6 =>
          match stepNot rec r6 with
          | .error e => .error e
          | .ok r7 => .ok (.obj (JObj.ofList r7))) = Except.ok (Json.obj (JObj.ofList r7))
  rw [h4]
  show (match stepComp "oneOf" rec r4 with
    | .error e => .error e
    | .ok r5 =>
      match stepComp "anyOf" rec r5 with
      | .error e => .error e
      | .ok r6 =>
        match stepNot rec r6 with
        | .error e => .error e
        | .ok r7 => .ok (.obj (JObj.ofList r7))) = Except.ok (Json.obj (JObj.ofList r7))
  rw [h5]
  show (match stepComp "anyOf" rec r5 with
    | .error e => .error e
    | .ok r6 =>
      match stepNot rec r6 with
      | .error e => .error e
      | .ok r7 => .ok (.obj (JObj.ofList r7))) = Except.ok (Json.obj (JObj.ofList r7))
  rw [h6]
  show (match stepNot rec r6 with
    | .error e => .error e
    | .ok r7 => .ok (.obj (JObj.ofList r7))) = Except.ok (Json.obj (JObj.ofList r7))
  rw [h7]

theorem compKeyOk_spread_of_wf {schema : Json} {key : String} {c : Char}
    (hc : c ∈ key.data) (hnd : ¬c.isDigit = true)
    (hcomp : ∀ kvs : JObj, schema = .obj kvs → compKeyOk kvs.toList key = true)
    (hp : isPrim schema = false) :
    compKeyOk (jsSpread schema) key = true := by
  cases schema with
  | obj kvs => exact hcomp kvs rfl
  | arr xs =>
    rw [jsSpread, compKeyOk, getTruthy_arrEntries_none hc hnd xs.toList 0]
  | null => simp [isPrim] at hp
  | bool b => simp [isPrim] at hp
  | num n => simp [isPrim] at hp
  | str s => simp [isPrim] at hp

theorem wfComp_compKeyOk {kvs : JObj} (hwf : wfComp (.obj kvs) = true) :
    compKeyOk kvs.toList "allOf" = true ∧ compKeyOk kvs.toList "oneOf" = true ∧
      compKeyOk kvs.toList "anyOf" = true := by
  rw [wfComp, Bool.and_eq_true] at hwf
  have h := hwf.1
  rw [compOk, Bool.and_eq_true, Bool.and_eq_true] at h
  exact ⟨h.1.1, h.1.2, h.2⟩

/-- Bounded-fuel form: a fragment whose composition keywords hereditarily
honour the `Schema` type resolves without raising. -/
theorem resolveSchema_ok_of_wf (spec : Json) :
    ∀ n schema visited, fuelFor spec schema visited ≤ n → wfComp schema = true →
      ∃ u, resolveSchema spec schema visited = .ok u := by
  intro n
  induction n using Nat.strong_induction_on with
  | _ n ih =>
    intro schema visited hn hwf
    rw [resolveSchema_unfold, resolveStep]
    by_cases hp : isPrim schema = true
    · rw [if_pos hp]
      exact ⟨schema, rfl⟩
    · rw [if_neg hp]
      have hp' : isPrim schema = false := by rwa [Bool.not_eq_true] at hp
      split
      · rename_i r href
        by_cases hvis : r ∈ visited
        · rw [if_pos hvis]
          exact ⟨_, rfl⟩
        · rw [if_neg hvis]
          split
          · exact ⟨schema, rfl⟩
          · split
            · exact ⟨schema, rfl⟩
            · exact ⟨_, rfl⟩
      · exact ⟨schema, rfl⟩
      · apply branchStep_ok
        · intro k v hv
          have hlt := @fuelFor_lt_branch spec _ visited _ _ hp' hv
          exact ih (fuelFor spec v visited) (by omega) v visited le_rfl
            (wfComp_keyArgs hv hwf)
        · refine @compKeyOk_spread_of_wf _ _ 'a' (by decide) (by decide) ?_ hp'
          intro kvs he
          subst he
          exact (wfComp_compKeyOk hwf).1
        · refine @compKeyOk_spread_of_wf _ _ 'o' (by decide) (by decide) ?_ hp'
          intro kvs he
          subst he
          exact (wfComp_compKeyOk hwf).2.1
        · refine @compKeyOk_spread_of_wf _ _ 'a' (by decide) (by decide) ?_ hp'
          intro kvs he
          subst he
          exact (wfComp_compKeyOk hwf).2.2

/-! ## `parser.ts`: `detectVersion` and `normalizeSpec` -/

def hasKeyJ (kvs : List (String × Json)) (k : String) : Bool :=
  kvs.any (fun p => p.1 == k)

/-- `detectVersion(spec)` of `src/parser.ts`: the legacy marker is a
`swagger` field strictly equal to the string `"2.0"`; any document carrying
an `openapi` key is `"3.0+"`; otherwise the function throws. (The `in`
operator on a non-object would itself throw a `TypeError`; the typed source
never reaches that, and no claim depends on the message.) -/
def detectVersion (spec : Json) : Except String String :=
  match spec with
  | .obj kvs =>
    match lookupKvs kvs.toList "swagger" with
    | some (.str s) =>
      if s == "2.0" then .ok "2.0"
      else if hasKeyJ kvs.toList "openapi" then .ok "3.0+"
      else .error "Unknown or unsupported OpenAPI/Swagger version"
    | _ =>
      if hasKeyJ kvs.toList "openapi" then .ok "3.0+"
      else .error "Unknown or unsupported OpenAPI/Swagger version"
  | .arr _ => .error "Unknown or unsupported OpenAPI/Swagger version"
  | _ => .error "TypeError: cannot use the in operator on a primitive"

def intToStr : Int → String
  | .ofNat m => natToStr m
  | .negSucc m => "-" ++ natToStr (m + 1)

mutual

/-- JavaScript string coercion as performed by a template literal. -/
def jsToString : Json → String
  | .null => "null"
  | .bool b => if b then "true" else "false"
  | .num n => intToStr n
  | .str s => s
  | .arr xs => jsToStringA xs
  | .obj _ => "[object Object]"

/-- `Array.prototype.toString`: `join(",")`, `null` joining as empty. -/
def jsToStringA : JArr → String
  | .nil => ""
  | .cons x .nil =>
    match x with
    | .null => ""
    | _ => jsToString x
  | .cons x xs =>
    (match x with
     | .null => ""
     | _ => jsToString x) ++ "," ++ jsToStringA xs

end

/-- JavaScript string-keyed read on a string value: indices and `length`. -/
def strProp (s : String) (k : String) : Option Json :=
  if k == "length" then some (.num s.length)
  else
    match digitsToNat k.data with
    | some n =>
      if natToStr n == k then
        match s.data[n]? with
        | some c => some (.str (String.mk [c]))
        | none => none
      else none
    | none => none

/-- Property access `base.k`: raises a `TypeError` on `undefined`/`null`,
yields `undefined` for an absent property, works on any other value. -/
def jsGetProp (base : Option Json) (k : String) : Except String (Option Json) :=
  match base with
  | none => .error "TypeError: Cannot read properties of undefined"
  | some .null => .error "TypeError: Cannot read properties of null"
  | some (.obj kvs) => .ok (lookupKvs kvs.toList k)
  | some (.arr xs) => .ok (arrIndex xs.toList k)
  | some (.str s) => .ok (strProp s k)
  | some (.bool _) => .ok none
  | some (.num _) => .ok none

/-- Optional-chained index `v?.[0]`. -/
def optIndexZero (v : Option Json) : Option Json :=
  match v with
  | none => none
  | some .null => none
  | some (.obj kvs) => lookupKvs kvs.toList "0"
  | some (.arr xs) => xs.toList[0]?
  | some (.str s) =>
    match s.data[0]? with
    | some c => some (.str (String.mk [c]))
    | none => none
  | some _ => none

/-- Optional-chained property `v?.k`. -/
def optProp (v : Option Json) (k : String) : Option Json :=
  match v with
  | none => none
  | some .null => none
  | some (.obj kvs) => lookupKvs kvs.toList k
  | some (.arr xs) => arrIndex xs.toList k
  | some (.str s) => strProp s k
  | some _ => none

/-- `x || d` on a possibly-undefined value. -/
def jsOr (v : Option Json) (dflt : Json) : Json :=
  match v with
  | some u => if jsTruthy u then u else dflt
  | none => dflt

/-- The shared view produced by `normalizeSpec`. -/
structure NormalizedSpec where
  version : Option Json
  title : Option Json
  description : Option Json
  baseUrl : Option Json
  paths : Option Json
  models : Json

/-- `normalizeSpec(spec)` of `src/parser.ts`: detect the version (a failure
propagates), then project both document shapes onto the shared view. The
`info.title` / `info.description` accesses throw when `info` is absent or
`null`; every other access is optional-chained or guarded in the source. -/
def normalizeSpec (spec : Json) : Except String NormalizedSpec :=
  match detectVersion spec with
  | .error e => .error e
  | .ok ver =>
    match spec with
    | .obj kvs =>
      let fields := kvs.toList
      if ver == "2.0" then
        match jsGetProp (lookupKvs fields "info") "title" with
        | .error e => .error e
        | .ok title =>
          match jsGetProp (lookupKvs fields "info") "description" with
          | .error e => .error e
          | .ok desc =>
            .ok ⟨lookupKvs fields "swagger", title, desc,
              (match lookupKvs fields "host" with
               | some hv =>
                 if jsTruthy hv then
                   some (.str
                     (jsToString (jsOr (optIndexZero (lookupKvs fields "schemes")) (.str "http"))
                       ++ "://" ++ jsToString hv
                       ++ jsToString (jsOr (lookupKvs fields "basePath") (.str ""))))
                 else none
               | none => none),
              lookupKvs fields "paths",
              jsOr (lookupKvs fields "definitions") (.obj .nil)⟩
      else
        match jsGetProp (lookupKvs fields "info") "title" with
        | .error e => .error e
        | .ok title =>
          match jsGetProp (lookupKvs fields "info") "description" with
          | .error e => .error e
          | .ok desc =>
            .ok ⟨lookupKvs fields "openapi", title, desc,
              optProp (optIndexZero (lookupKvs fields "servers")) "url",
              lookupKvs fields "paths",
              jsOr (optProp (lookupKvs fields "components") "schemas") (.obj .nil)⟩
    | _ =>
      -- unreachable: `detectVersion` only succeeds on objects
      .error "unreachable"

/-! ## `cache.ts`: the spec cache -/

/-- The persisted cache record (`CacheEntry` of `src/types.ts`). -/
structure CacheEntry where
  url : String
  etag : Option String
  lastModified : Option String
  cachedAt : String
  spec : Json

/-- Outcome of the lightweight HEAD request against the remote:
unreachable, or a response with status and validator headers. The source's
`validateStatus: (status) => status < 500` makes axios itself throw on a
5xx, which the surrounding `try` turns into the same conservative answer as
a network failure. -/
inductive HeadRemote where
  | unreachable : HeadRemote
  | respond (status : Nat) (etag : Option String) (lastModified : Option String) : HeadRemote

/-- Outcome of the full GET request against the remote. -/
inductive GetRemote where
  | unreachable : GetRemote
  | respond (status : Nat) (body : Json) (etag : Option String)
      (lastModified : Option String) : GetRemote

/-- JavaScript truthiness of a possibly-absent header string (an absent or
empty value is falsy). -/
def strTruthy : Option String → Bool
  | none => false
  | some s => s != ""

/-- `checkIfModified(config, cachedEntry)` of `src/cache.ts`: `true` means
the cache is stale (modified or undeterminable). HEAD failure or 5xx
(rejected by `validateStatus`) is conservative stale; 405 and 4xx are
stale; an ETag comparison runs only when both sides carry a truthy `etag`;
otherwise a Last-Modified comparison runs only when both sides carry a
truthy `last-modified`; otherwise stale. -/
def checkIfModified (remote : HeadRemote) (cachedEntry : CacheEntry) : Bool :=
  match remote with
  | .unreachable => true
  | .respond status etag lastModified =>
    if 500 ≤ status then true
    else if status == 405 then true
    else if 400 ≤ status then true
    else if strTruthy etag && strTruthy cachedEntry.etag then etag != cachedEntry.etag
    else if strTruthy lastModified && strTruthy cachedEntry.lastModified then
      lastModified != cachedEntry.lastModified
    else true

/-- `fetchSpec(config)` of `src/cache.ts`: a reachable remote answering
exactly 200 yields the document and its validator headers; any other
status, and any transport failure, raises. -/
def fetchSpec (remote : GetRemote) : Except String (Json × Option String × Option String) :=
  match remote with
  | .unreachable =>
    .error "Failed to fetch Swagger spec: No response from server"
  | .respond status body etag lastModified =>
    if status == 200 then .ok (body, etag, lastModified)
    else .error ("Failed to fetch Swagger spec: HTTP " ++ natToStr status)

/-- The world `getCachedSpec` runs against: the cache entry on disk for the
URL (as `readCacheEntry` reports it), the behaviour of the remote for the
HEAD check and for the full GET, and the current timestamp. -/
structure CacheWorld where
  cached : Option CacheEntry
  headRemote : HeadRemote
  getRemote : GetRemote
  now : String

/-- Observable outcome of one `getCachedSpec` call: the returned document
(or the raised error), the cache entry written to disk if any, and whether
a full fetch was performed. -/
structure CacheOutcome where
  result : Except String Json
  written : Option CacheEntry
  fullFetch : Bool

/-- `getCachedSpec(config)` of `src/cache.ts`: no cache entry means fetch
and persist (a fetch failure propagates); with an entry, a fresh
lightweight check serves the cached document with no fetch and no write; a
stale one triggers a full fetch whose success wholly replaces the entry and
whose failure falls back to the cached document. -/
def getCachedSpec (url : String) (w : CacheWorld) : CacheOutcome :=
  match w.cached with
  | none =>
    match fetchSpec w.getRemote with
    | .error e => ⟨.error e, none, true⟩
    | .ok (spec, etag, lastModified) =>
      ⟨.ok spec, some ⟨url, etag, lastModified, w.now, spec⟩, true⟩
  | some cachedEntry =>
    if checkIfModified w.headRemote cachedEntry then
      match fetchSpec w.getRemote with
      | .error _ => ⟨.ok cachedEntry.spec, none, true⟩
      | .ok (spec, etag, lastModified) =>
        ⟨.ok spec, some ⟨url, etag, lastModified, w.now, spec⟩, true⟩
    else ⟨.ok cachedEntry.spec, none, false⟩

/-! ## Heap-level embedding of `resolveSchema`

To state that resolution never mutates the document or the input fragment,
the JavaScript object store is modelled explicitly: compound values live at
addresses in a heap, `{ ...schema }`, `Object.fromEntries`, `.map` and the
merge allocate fresh objects, and the field updates of the source are
in-place writes to the freshly allocated result object. The frame theorem
below proves every write lands above the initial heap size. -/

inductive HVal where
  | null : HVal
  | bool (b : Bool) : HVal
  | num (n : Int) : HVal
  | str (s : String) : HVal
  | addr (a : Nat) : HVal
deriving DecidableEq

inductive HObj where
  | arr (elems : List HVal) : HObj
  | obj (fields : List (String × HVal)) : HObj
deriving DecidableEq

structure Heap where
  size : Nat
  mem : Nat → HObj

/-- Allocate a fresh object, returning the new heap and its address. -/
def Heap.alloc (h : Heap) (o : HObj) : Heap × Nat :=
  (⟨h.size + 1, fun a => if a = h.size then o else h.mem a⟩, h.size)

/-- In-place update of the object at an address. -/
def Heap.write (h : Heap) (a : Nat) (o : HObj) : Heap :=
  ⟨h.size, fun b => if b = a then o else h.mem b⟩

def hTruthy : HVal → Bool
  | .null => false
  | .bool b => b
  | .num n => n != 0
  | .str s => s != ""
  | .addr _ => true

def hLookup (kvs : List (String × HVal)) (k : String) : Option HVal :=
  (kvs.find? (fun p => p.1 == k)).map (fun p => p.2)

def hGetTruthy (kvs : List (String × HVal)) (k : String) : Option HVal :=
  match hLookup kvs k with
  | some v => if hTruthy v then some v else none
  | none => none

def hSetProp : List (String × HVal) → String → HVal → List (String × HVal)
  | [], k, v => [(k, v)]
  | (k', v') :: rest, k, v =>
    if k' == k then (k', v) :: rest else (k', v') :: hSetProp rest k v

def hMergeProps (a b : List (String × HVal)) : List (String × HVal) :=
  b.foldl (fun acc p => hSetProp acc p.1 p.2) a

def hRemoveKey (kvs : List (String × HVal)) (k : String) : List (String × HVal) :=
  kvs.filter (fun p => p.1 != k)

def hArrEntries (i : Nat) : List HVal → List (String × HVal)
  | [] => []
  | x :: xs => (natToStr i, x) :: hArrEntries (i + 1) xs

def hCharEntries (i : Nat) : List Char → List (String × HVal)
  | [] => []
  | c :: cs => (natToStr i, HVal.str (String.mk [c])) :: hCharEntries (i + 1) cs

/-- Own enumerable entries of a value, dereferencing the heap. -/
def hSpread (h : Heap) : HVal → List (String × HVal)
  | .null => []
  | .bool _ => []
  | .num _ => []
  | .str s => hCharEntries 0 s.data
  | .addr a =>
    match h.mem a with
    | .arr xs => hArrEntries 0 xs
    | .obj kvs => kvs

def hArrIndex (xs : List HVal) (k : String) : Option HVal :=
  if k == "length" then some (.num xs.length)
  else
    match digitsToNat k.data with
    | some n => if natToStr n == k then xs[n]? else none
    | none => none

def hObjFields (h : Heap) (a : Nat) : List (String × HVal) :=
  match h.mem a with
  | .obj kvs => kvs
  | .arr xs => hArrEntries 0 xs

/-- Heap counterpart of `refWalk` (read-only). -/
def refWalkH (h : Heap) (ref : String) :
    Option HVal → List String → Except String (Option HVal)
  | cur, [] => .ok cur
  | cur, seg :: rest =>
    let d := decodeSegment seg
    match cur with
    | none => .error ("Cannot resolve reference: " ++ ref ++ " (path does not exist)")
    | some .null => .error ("Cannot resolve reference: " ++ ref ++ " (path does not exist)")
    | some (.bool _) => .error ("Cannot resolve reference: " ++ ref ++ " (invalid path)")
    | some (.num _) => .error ("Cannot resolve reference: " ++ ref ++ " (invalid path)")
    | some (.str _) => .error ("Cannot resolve reference: " ++ ref ++ " (invalid path)")
    | some (.addr a) =>
      match h.mem a with
      | .arr xs => refWalkH h ref (hArrIndex xs d) rest
      | .obj kvs => refWalkH h ref (hLookup kvs d) rest

/-- Heap counterpart of `resolveRef` (read-only). -/
def resolveRefH (h : Heap) (spec : HVal) (ref : String) : Except String HVal :=
  if !(startsWithHashSlash ref) then
    .error ("External references not supported: " ++ ref)
  else
    match refWalkH h ref (some spec) (splitSlash (ref.data.drop 2)) with
    | .error e => .error e
    | .ok none => .error ("Cannot resolve reference: " ++ ref ++ " (not found)")
    | .ok (some v) => .ok v

def hRefOf (h : Heap) (a : Nat) : Option HVal :=
  match h.mem a with
  | .obj kvs => hGetTruthy kvs "$ref"
  | .arr _ => none

/-- Sequentially resolve the values of an entry list, threading the heap
(the `.map` callback runs left to right); stops at the first raise. -/
def mapThreadH (f : HVal → Heap → Except String HVal × Heap) :
    List (String × HVal) → Heap → Except String (List (String × HVal)) × Heap
  | [], h => (.ok [], h)
  | (k, v) :: rest, h =>
    match f v h with
    | (.error e, h1) => (.error e, h1)
    | (.ok u, h1) =>
      match mapThreadH f rest h1 with
      | (.error e, h2) => (.error e, h2)
      | (.ok us, h2) => (.ok ((k, u) :: us), h2)

/-- Same for a plain element list. -/
def mapThreadHL (f : HVal → Heap → Except String HVal × Heap) :
    List HVal → Heap → Except String (List HVal) × Heap
  | [], h => (.ok [], h)
  | v :: rest, h =>
    match f v h with
    | (.error e, h1) => (.error e, h1)
    | (.ok u, h1) =>
      match mapThreadHL f rest h1 with
      | (.error e, h2) => (.error e, h2)
      | (.ok us, h2) => (.ok (u :: us), h2)

/-- `result.properties = Object.fromEntries(Object.entries(result
.properties).map(...))` on the heap: snapshot the entries, resolve each
value, allocate the new object, write the field of `res` in place. -/
def stepPropertiesH (recur : HVal → Heap → Except String HVal × Heap)
    (res : Nat) (h : Heap) : Except String Unit × Heap :=
  match hGetTruthy (hObjFields h res) "properties" with
  | none => (.ok (), h)
  | some p =>
    match mapThreadH recur (hSpread h p) h with
    | (.error e, h1) => (.error e, h1)
    | (.ok entries, h1) =>
      match h1.alloc (.obj entries) with
      | (h2, pa) =>
        (.ok (), h2.write res (.obj (hSetProp (hObjFields h2 res) "properties" (.addr pa))))

def stepItemsH (recur : HVal → Heap → Except String HVal × Heap)
    (res : Nat) (h : Heap) : Except String Unit × Heap :=
  match hGetTruthy (hObjFields h res) "items" with
  | none => (.ok (), h)
  | some v =>
    match v with
    | .addr a =>
      match h.mem a with
      | .arr xs =>
        match mapThreadHL recur xs h with
        | (.error e, h1) => (.error e, h1)
        | (.ok ys, h1) =>
          match h1.alloc (.arr ys) with
          | (h2, na) =>
            (.ok (), h2.write res (.obj (hSetProp (hObjFields h2 res) "items" (.addr na))))
      | .obj _ =>
        match recur v h with
        | (.error e, h1) => (.error e, h1)
        | (.ok u, h1) =>
          (.ok (), h1.write res (.obj (hSetProp (hObjFields h1 res) "items" u)))
    | _ =>
      match recur v h with
      | (.error e, h1) => (.error e, h1)
      | (.ok u, h1) =>
        (.ok (), h1.write res (.obj (hSetProp (hObjFields h1 res) "items" u)))

def stepAdditionalH (recur : HVal → Heap → Except String HVal × Heap)
    (res : Nat) (h : Heap) : Except String Unit × Heap :=
  match hGetTruthy (hObjFields h res) "additionalProperties" with
  | some (.addr a) =>
    match recur (.addr a) h with
    | (.error e, h1) => (.error e, h1)
    | (.ok u, h1) =>
      (.ok (), h1.write res (.obj (hSetProp (hObjFields h1 res) "additionalProperties" u)))
  | _ => (.ok (), h)

def stepCompH (key : String) (recur : HVal → Heap → Except String HVal × Heap)
    (res : Nat) (h : Heap) : Except String Unit × Heap :=
  match hGetTruthy (hObjFields h res) key with
  | none => (.ok (), h)
  | some v =>
    match v with
    | .addr a =>
      match h.mem a with
      | .arr xs =>
        match mapThreadHL recur xs h with
        | (.error e, h1) => (.error e, h1)
        | (.ok ys, h1) =>
          match h1.alloc (.arr ys) with
          | (h2, na) =>
            (.ok (), h2.write res (.obj (hSetProp (hObjFields h2 res) key (.addr na))))
      | .obj _ => (.error ("TypeError: " ++ key ++ ".map is not a function"), h)
    | _ => (.error ("TypeError: " ++ key ++ ".map is not a function"), h)

def stepNotH (recur : HVal → Heap → Except String HVal × Heap)
    (res : Nat) (h : Heap) : Except String Unit × Heap :=
  match hGetTruthy (hObjFields h res) "not" with
  | none => (.ok (), h)
  | some v =>
    match recur v h with
    | (.error e, h1) => (.error e, h1)
    | (.ok u, h1) =>
      (.ok (), h1.write res (.obj (hSetProp (hObjFields h1 res) "not" u)))

/-- Heap-level `resolveSchema`: identical control flow to the pure
embedding, with the copies, merges and placeholder as fresh allocations
and the field updates as writes to the freshly allocated result. -/
def resolveSchemaH (spec : HVal) :
    Nat → HVal → Finset String → Heap → Except String HVal × Heap
  | _, .null, _, h => (.ok .null, h)
  | _, .bool b, _, h => (.ok (.bool b), h)
  | _, .num n, _, h => (.ok (.num n), h)
  | _, .str s, _, h => (.ok (.str s), h)
  | 0, .addr a, _, h => (.error "out of fuel", h)
  | fuel + 1, .addr a, visited, h =>
    match hRefOf h a with
    | some (.str r) =>
      if r ∈ visited then
        match h.alloc (.obj [("description", .str ("Circular reference: " ++ r)),
            ("type", .str "object")]) with
        | (h1, pa) => (.ok (.addr pa), h1)
      else
        match resolveRefH h spec r with
        | .error _ => (.ok (.addr a), h)
        | .ok target =>
          match h.alloc (.obj (hMergeProps (hSpread h target)
              (hRemoveKey (hObjFields h a) "$ref"))) with
          | (h1, ma) =>
            match resolveSchemaH spec fuel (.addr ma) (insert r visited) h1 with
            | (.error _, h2) => (.ok (.addr a), h2)
            | (.ok v, h2) => (.ok v, h2)
    | some _ => (.ok (.addr a), h)
    | none =>
      match h.alloc (.obj (hSpread h (.addr a))) with
      | (h1, res) =>
        match stepPropertiesH (fun v hh => resolveSchemaH spec fuel v visited hh) res h1 with
        | (.error e, h2) => (.error e, h2)
        | (.ok _, h2) =>
          match stepItemsH (fun v hh => resolveSchemaH spec fuel v visited hh) res h2 with
          | (.error e, h3) => (.error e, h3)
          | (.ok _, h3) =>
            match stepAdditionalH (fun v hh => resolveSchemaH spec fuel v visited hh) res h3 with
            | (.error e, h4) => (.error e, h4)
            | (.ok _, h4) =>
              match stepCompH "allOf" (fun v hh => resolveSchemaH spec fuel v visited hh) res h4 with
              | (.error e, h5) => (.error e, h5)
              | (.ok _, h5) =>
                match stepCompH "oneOf" (fun v hh => resolveSchemaH spec fuel v visited hh) res h5 with
                | (.error e, h6) => (.error e, h6)
                | (.ok _, h6) =>
                  match stepCompH "anyOf" (fun v hh => resolveSchemaH spec fuel v visited hh) res h6 with
                  | (.error e, h7) => (.error e, h7)
                  | (.ok _, h7) =>
                    match stepNotH (fun v hh => resolveSchemaH spec fuel v visited hh) res h7 with
                    | (.error e, h8) => (.error e, h8)
                    | (.ok _, h8) => (.ok (.addr res), h8)

/-! ## The frame property: resolution only allocates, never overwrites -/

/-- `h'` extends `h`: it is at least as large and agrees with `h` on every
pre-existing address. -/
def Heap.ext (h h' : Heap) : Prop :=
  h.size ≤ h'.size ∧ ∀ a, a < h.size → h'.mem a = h.mem a

theorem Heap.ext_refl (h : Heap) : Heap.ext h h :=
  ⟨le_rfl, fun _ _ => rfl⟩

theorem Heap.ext_trans {h1 h2 h3 : Heap} (hx : Heap.ext h1 h2) (hy : Heap.ext h2 h3) :
    Heap.ext h1 h3 :=
  ⟨le_trans hx.1 hy.1,
   fun a ha => (hy.2 a (lt_of_lt_of_le ha hx.1)).trans (hx.2 a ha)⟩

theorem Heap.alloc_ext (h : Heap) (o : HObj) : Heap.ext h (h.alloc o).1 := by
  constructor
  · show h.size ≤ h.size + 1
    omega
  · intro a ha
    show (if a = h.size then o else h.mem a) = h.mem a
    rw [if_neg (by omega)]

theorem Heap.write_ext {h0 h1 : Heap} (hx : Heap.ext h0 h1) {a : Nat}
    (ha : h0.size ≤ a) (o : HObj) : Heap.ext h0 (h1.write a o) := by
  constructor
  · exact hx.1
  · intro b hb
    show (if b = a then o else h1.mem b) = h0.mem b
    rw [if_neg (by omega)]
    exact hx.2 b hb

theorem mapThreadH_ext {f : HVal → Heap → Except String HVal × Heap}
    (hf : ∀ v hh, Heap.ext hh (f v hh).2) :
    ∀ (l : List (String × HVal)) (h : Heap), Heap.ext h (mapThreadH f l h).2 := by
  intro l
  induction l with
  | nil => intro h; exact Heap.ext_refl h
  | cons p rest ih =>
    intro h
    obtain ⟨k, v⟩ := p
    rw [mapThreadH]
    split
    · rename_i e h1 heq
      have hv := hf v h
      rw [heq] at hv
      exact hv
    · rename_i u h1 heq
      have hv := hf v h
      rw [heq] at hv
      split
      · rename_i e2 h2 heq2
        have hr := ih h1
        rw [heq2] at hr
        exact Heap.ext_trans hv hr
      · rename_i us h2 heq2
        have hr := ih h1
        rw [heq2] at hr
        exact Heap.ext_trans hv hr

theorem mapThreadHL_ext {f : HVal → Heap → Except String HVal × Heap}
    (hf : ∀ v hh, Heap.ext hh (f v hh).2) :
    ∀ (l : List HVal) (h : Heap), Heap.ext h (mapThreadHL f l h).2 := by
  intro l
  induction l with
  | nil => intro h; exact Heap.ext_refl h
  | cons v rest ih =>
    intro h
    rw [mapThreadHL]
    split
    · rename_i e h1 heq
      have hv := hf v h
      rw [heq] at hv
      exact hv
    · rename_i u h1 heq
      have hv := hf v h
      rw [heq] at hv
      split
      · rename_i e2 h2 heq2
        have hr := ih h1
        rw [heq2] at hr
        exact Heap.ext_trans hv hr
      · rename_i us h2 heq2
        have hr := ih h1
        rw [heq2] at hr
        exact Heap.ext_trans hv hr

theorem stepPropertiesH_ext {recur : HVal → Heap → Except String HVal × Heap}
    (hrec : ∀ v hh, Heap.ext hh (recur v hh).2) {h0 : Heap} {res : Nat} {h : Heap}
    (hext : Heap.ext h0 h) (hres : h0.size ≤ res) :
    Heap.ext h0 (stepPropertiesH recur res h).2 := by
  rw [stepPropertiesH]
  split
  · exact hext
  · rename_i p heqp
    split
    · rename_i e h1 heq
      have hm := mapThreadH_ext hrec (hSpread h p) h
      rw [heq] at hm
      exact Heap.ext_trans hext hm
    · rename_i entries h1 heq
      have hm := mapThreadH_ext hrec (hSpread h p) h
      rw [heq] at hm
      split
      · rename_i h2 pa heq2
        have ha := Heap.alloc_ext h1 (.obj entries)
        rw [heq2] at ha
        exact Heap.write_ext (Heap.ext_trans (Heap.ext_trans hext hm) ha) hres _

theorem stepItemsH_ext {recur : HVal → Heap → Except String HVal × Heap}
    (hrec : ∀ v hh, Heap.ext hh (recur v hh).2) {h0 : Heap} {res : Nat} {h : Heap}
    (hext : Heap.ext h0 h) (hres : h0.size ≤ res) :
    Heap.ext h0 (stepItemsH recur res h).2 := by
  rw [stepItemsH]
  split
  · exact hext
  · rename_i v heqv
    split
    · rename_i a
      split
      · rename_i xs heqa
        split
        · rename_i e h1 heq
          have hm := mapThreadHL_ext hrec xs h
          rw [heq] at hm
          exact Heap.ext_trans hext hm
        · rename_i ys h1 heq
          have hm := mapThreadHL_ext hrec xs h
          rw [heq] at hm
          split
          · rename_i h2 na heq2
            have ha := Heap.alloc_ext h1 (.arr ys)
            rw [heq2] at ha
            exact Heap.write_ext (Heap.ext_trans (Heap.ext_trans hext hm) ha) hres _
      · rename_i kvs heqa
        split
        · rename_i e h1 heq
          have hv := hrec (HVal.addr a) h
          rw [heq] at hv
          exact Heap.ext_trans hext hv
        · rename_i u h1 heq
          have hv := hrec (HVal.addr a) h
          rw [heq] at hv
          exact Heap.write_ext (Heap.ext_trans hext hv) hres _
    · rename_i hnotaddr
      split
      · rename_i e h1 heq
        have hv := hrec v h
        rw [heq] at hv
        exact Heap.ext_trans hext hv
      · rename_i u h1 heq
        have hv := hrec v h
        rw [heq] at hv
        exact Heap.write_ext (Heap.ext_trans hext hv) hres _

theorem stepAdditionalH_ext {recur : HVal → Heap → Except String HVal × Heap}
    (hrec : ∀ v hh, Heap.ext hh (recur v hh).2) {h0 : Heap} {res : Nat} {h : Heap}
    (hext : Heap.ext h0 h) (hres : h0.size ≤ res) :
    Heap.ext h0 (stepAdditionalH recur res h).2 := by
  rw [stepAdditionalH]
  split
  · rename_i a heq0
    split
    · rename_i e h1 heq
      have hv := hrec (HVal.addr a) h
      rw [heq] at hv
      exact Heap.ext_trans hext hv
    · rename_i u h1 heq
      have hv := hrec (HVal.addr a) h
      rw [heq] at hv
      exact Heap.write_ext (Heap.ext_trans hext hv) hres _
  · exact hext

theorem stepCompH_ext (key : String) {recur : HVal → Heap → Except String HVal × Heap}
    (hrec : ∀ v hh, Heap.ext hh (recur v hh).2) {h0 : Heap} {res : Nat} {h : Heap}
    (hext : Heap.ext h0 h) (hres : h0.size ≤ res) :
    Heap.ext h0 (stepCompH key recur res h).2 := by
  rw [stepCompH]
  split
  · exact hext
  · rename_i v heqv
    split
    · rename_i a
      split
      · rename_i xs heqa
        split
        · rename_i e h1 heq
          have hm := mapThreadHL_ext hrec xs h
          rw [heq] at hm
          exact Heap.ext_trans hext hm
        · rename_i ys h1 heq
          have hm := mapThreadHL_ext hrec xs h
          rw [heq] at hm
          split
          · rename_i h2 na heq2
            have ha := Heap.alloc_ext h1 (.arr ys)
            rw [heq2] at ha
            exact Heap.write_ext (Heap.ext_trans (Heap.ext_trans hext hm) ha) hres _
      · exact hext
    · exact hext

theorem stepNotH_ext {recur : HVal → Heap → Except String HVal × Heap}
    (hrec : ∀ v hh, Heap.ext hh (recur v hh).2) {h0 : Heap} {res : Nat} {h : Heap}
    (hext : Heap.ext h0 h) (hres : h0.size ≤ res) :
    Heap.ext h0 (stepNotH recur res h).2 := by
  rw [stepNotH]
  split
  · exact hext
  · rename_i v heqv
    split
    · rename_i e h1 heq
      have hv := hrec v h
      rw [heq] at hv
      exact Heap.ext_trans hext hv
    · rename_i u h1 heq
      have hv := hrec v h
      rw [heq] at hv
      exact Heap.write_ext (Heap.ext_trans hext hv) hres _

/-- Every execution of the heap-level resolver, at any fuel, only extends
the heap: no pre-existing address is ever written. -/
theorem resolveSchemaH_frame (spec : HVal) :
    ∀ (fuel : Nat) (schema : HVal) (visited : Finset String) (h : Heap),
      Heap.ext h (resolveSchemaH spec fuel schema visited h).2 := by
  intro fuel
  induction fuel with
  | zero =>
    intro schema visited h
    cases schema <;> exact Heap.ext_refl h
  | succ fuel ih =>
    intro schema visited h
    cases schema with
    | null => exact Heap.ext_refl h
    | bool b => exact Heap.ext_refl h
    | num n => exact Heap.ext_refl h
    | str s => exact Heap.ext_refl h
    | addr a =>
      have hrec : ∀ v hh,
          Heap.ext hh ((fun v hh => resolveSchemaH spec fuel v visited hh) v hh).2 :=
        fun v hh => ih v visited hh
      rw [resolveSchemaH]
      split
      · rename_i r heqr
        split
        · split
          · rename_i h1 pa heq
            have ha := Heap.alloc_ext h (.obj [("description",
              .str ("Circular reference: " ++ r)), ("type", .str "object")])
            rw [heq] at ha
            exact ha
        · split
          · exact Heap.ext_refl h
          · rename_i target heqt
            split
            · rename_i h1 ma heq
              have ha := Heap.alloc_ext h (.obj (hMergeProps (hSpread h target)
                (hRemoveKey (hObjFields h a) "$ref")))
              rw [heq] at ha
              split
              · rename_i e h2 heq2
                have hr := ih (.addr ma) (insert r visited) h1
                rw [heq2] at hr
                exact Heap.ext_trans ha hr
              · rename_i v h2 heq2
                have hr := ih (.addr ma) (insert r visited) h1
                rw [heq2] at hr
                exact Heap.ext_trans ha hr
      · exact Heap.ext_refl h
      · split
        · rename_i h1 res heq
          have ha := Heap.alloc_ext h (.obj (hSpread h (.addr a)))
          rw [heq] at ha
          have hres : h.size ≤ res := by
            have : (h.alloc (.obj (hSpread h (.addr a)))).2 = res := by rw [heq]
            rw [← this]
            show h.size ≤ h.size
            exact le_rfl
          split
          · rename_i e h2 heq2
            have hs := stepPropertiesH_ext hrec ha hres
            rw [heq2] at hs
            exact hs
          · rename_i u1 h2 heq2
            have hs2 : Heap.ext h h2 := by
              have hs := stepPropertiesH_ext hrec ha hres
              rw [heq2] at hs
              exact hs
            split
            · rename_i e h3 heq3
              have hs := stepItemsH_ext hrec hs2 hres
              rw [heq3] at hs
              exact hs
            · rename_i u2 h3 heq3
              have hs3 : Heap.ext h h3 := by
                have hs := stepItemsH_ext hrec hs2 hres
                rw [heq3] at hs
                exact hs
              split
              · rename_i e h4 heq4
                have hs := stepAdditionalH_ext hrec hs3 hres
                rw [heq4] at hs
                exact hs
              · rename_i u3 h4 heq4
                have hs4 : Heap.ext h h4 := by
                  have hs := stepAdditionalH_ext hrec hs3 hres
                  rw [heq4] at hs
                  exact hs
                split
                · rename_i e h5 heq5
                  have hs := stepCompH_ext "allOf" hrec hs4 hres
                  rw [heq5] at hs
                  exact hs
                · rename_i u4 h5 heq5
                  have hs5 : Heap.ext h h5 := by
                    have hs := stepCompH_ext "allOf" hrec hs4 hres
                    rw [heq5] at hs
                    exact hs
                  split
                  · rename_i e h6 heq6
                    have hs := stepCompH_ext "oneOf" hrec hs5 hres
                    rw [heq6] at hs
                    exact hs
                  · rename_i u5 h6 heq6
                    have hs6 : Heap.ext h h6 := by
                      have hs := stepCompH_ext "oneOf" hrec hs5 hres
                      rw [heq6] at hs
                      exact hs
                    split
                    · rename_i e h7 heq7
                      have hs := stepCompH_ext "anyOf" hrec hs6 hres
                      rw [heq7] at hs
                      exact hs
                    · rename_i u6 h7 heq7
                      have hs7 : Heap.ext h h7 := by
                        have hs := stepCompH_ext "anyOf" hrec hs6 hres
                        rw [heq7] at hs
                        exact hs
                      split
                      · rename_i e h8 heq8
                        have hs := stepNotH_ext hrec hs7 hres
                        rw [heq8] at hs
                        exact hs
                      · rename_i u7 h8 heq8
                        have hs := stepNotH_ext hrec hs7 hres
                        rw [heq8] at hs
                        exact hs

/-! ## Reading a heap value back as a JSON tree -/

def readback (h : Heap) : Nat → HVal → Json
  | _, .null => .null
  | _, .bool b => .bool b
  | _, .num n => .num n
  | _, .str s => .str s
  | 0, .addr _ => .null
  | fuel + 1, .addr a =>
    match h.mem a with
    | .arr xs => .arr (JArr.ofList (xs.map (readback h fuel)))
    | .obj kvs => .obj (JObj.ofList (kvs.map (fun p => (p.1, readback h fuel p.2))))

def hvalBound (v : HVal) (n : Nat) : Bool :=
  match v with
  | .addr a => decide (a < n)
  | _ => true

def hobjBound (o : HObj) (n : Nat) : Bool :=
  match o with
  | .arr xs => xs.all (fun x => hvalBound x n)
  | .obj kvs => kvs.all (fun p => hvalBound p.2 n)

/-- Every address stored in a live object points below the heap size. -/
def heapClosed (h : Heap) : Prop :=
  ∀ a, a < h.size → hobjBound (h.mem a) h.size = true

theorem listMap_congr {α β : Type} {l : List α} {f g : α → β}
    (h : ∀ a ∈ l, f a = g a) : l.map f = l.map g := by
  induction l with
  | nil => rfl
  | cons a tl ih =>
    rw [List.map_cons, List.map_cons, h a (List.mem_cons_self a tl),
      ih (fun b hb => h b (List.mem_cons_of_mem a hb))]

/-- On a closed heap, extending the heap does not change the readback of
any pre-existing value, at any depth. -/
theorem readback_ext {h h' : Heap} (hx : Heap.ext h h') (hcl : heapClosed h) :
    ∀ (fuel : Nat) (v : HVal), hvalBound v h.size = true →
      readback h' fuel v = readback h fuel v := by
  intro fuel
  induction fuel with
  | zero => intro v hb; cases v <;> rfl
  | succ fuel ih =>
    intro v hb
    cases v with
    | null => rfl
    | bool b => rfl
    | num n => rfl
    | str s => rfl
    | addr a =>
      have ha : a < h.size := by
        rw [hvalBound] at hb
        exact of_decide_eq_true hb
      have hobj := hcl a ha
      rw [readback, readback, hx.2 a ha]
      cases hmem : h.mem a with
      | arr xs =>
        rw [hmem, hobjBound] at hobj
        show Json.arr (JArr.ofList (xs.map (readback h' fuel)))
          = Json.arr (JArr.ofList (xs.map (readback h fuel)))
        rw [listMap_congr (fun x hx2 => ih x (by
          have := List.all_eq_true.mp hobj x hx2
          simpa using this))]
      | obj kvs =>
        rw [hmem, hobjBound] at hobj
        show Json.obj (JObj.ofList (kvs.map (fun p => (p.1, readback h' fuel p.2))))
          = Json.obj (JObj.ofList (kvs.map (fun p => (p.1, readback h fuel p.2))))
        rw [listMap_congr (fun p hp => by
          have := List.all_eq_true.mp hobj p hp
          rw [ih p.2 (by simpa using this)])]

/-! ## Claims about the spec cache -/

/-- The freshness rule exactly as the specification states it: method
unsupported, client/server error, or both validators absent means stale;
otherwise a differing `etag` (including the asymmetric presence cases)
means stale; else, when both sides lack an `etag`, a differing
`last-modified` means stale; else fresh. Stated for a delivered HEAD
response. -/
def claimedFreshRule (status : Nat) (etag lastModified : Option String)
    (entry : CacheEntry) : Bool :=
  if status == 405 || decide (400 ≤ status) then true
  else if etag == none && lastModified == none then true
  else if etag != entry.etag then true
  else if etag == none && entry.etag == none && lastModified != entry.lastModified then true
  else false

/-- The freshness rule the code actually implements: a failed or rejected
HEAD, a 405, or a 4xx/5xx status is stale; else the `etag`s are compared
exactly when both sides carry a non-empty one; else the `last-modified`
values are compared exactly when both sides carry a non-empty one; else
stale. -/
def staleDecision (remote : HeadRemote) (entry : CacheEntry) : Bool :=
  match remote with
  | .unreachable => true
  | .respond status etag lastModified =>
    if status == 405 || decide (400 ≤ status) then true
    else if strTruthy etag && strTruthy entry.etag then etag != entry.etag
    else if strTruthy lastModified && strTruthy entry.lastModified then
      lastModified != entry.lastModified
    else true

/-- C3 (counterexample): a remote carrying etag `"v2"` and last-modified
`"L"` against an entry with no etag and the same last-modified: the claim's
rule says stale (the etags differ, one side having none), but the code
compares the last-modified pair and reports fresh. -/
theorem checkIfModified_ne_claimedFreshRule :
    checkIfModified (.respond 200 (some "v2") (some "L"))
      ⟨"https://example.test/spec.json", none, some "L", "t0", .null⟩ = false
    ∧ claimedFreshRule 200 (some "v2") (some "L")
      ⟨"https://example.test/spec.json", none, some "L", "t0", .null⟩ = true := by
  constructor
  · rfl
  · rfl

/-- C3 (amended): the freshness decision of `checkIfModified` follows
`staleDecision`: error statuses (405, 4xx, 5xx) and transport failures are
stale; the etag comparison applies exactly when both sides carry a
non-empty etag; else the last-modified comparison applies exactly when
both sides carry a non-empty last-modified; else stale. -/
theorem checkIfModified_eq_staleDecision :
    ∀ (remote : HeadRemote) (entry : CacheEntry),
      checkIfModified remote entry = staleDecision remote entry := by
  intro remote entry
  cases remote with
  | unreachable => rfl
  | respond status etag lastModified =>
    rw [checkIfModified, staleDecision]
    by_cases h5 : 500 ≤ status
    · have hcond : (status == 405 || decide (400 ≤ status)) = true := by
        simp only [Bool.or_eq_true, decide_eq_true_eq]
        right
        omega
      rw [if_pos h5, if_pos hcond]
    · rw [if_neg h5]
      by_cases h405 : (status == 405) = true
      · have hcond : (status == 405 || decide (400 ≤ status)) = true := by
          simp only [Bool.or_eq_true]
          left
          exact h405
        rw [if_pos h405, if_pos hcond]
      · rw [if_neg h405]
        by_cases h4 : 400 ≤ status
        · have hcond : (status == 405 || decide (400 ≤ status)) = true := by
            simp only [Bool.or_eq_true, decide_eq_true_eq]
            right
            exact h4
          rw [if_pos h4, if_pos hcond]
        · have hcond : ¬((status == 405 || decide (400 ≤ status)) = true) := by
            simp only [Bool.or_eq_true, decide_eq_true_eq]
            rintro (h | h)
            · exact h405 h
            · exact h4 h
          rw [if_neg h4, if_neg hcond]

/-- C2: `getCachedSpec` raises exactly when no cache entry exists and the
full fetch fails; whenever an entry exists, a full-fetch failure is
absorbed and the previously cached document is returned. -/
theorem getCachedSpec_error_iff (url : String) (w : CacheWorld) :
    ((∃ e, (getCachedSpec url w).result = .error e) ↔
      (w.cached = none ∧ ∃ e, fetchSpec w.getRemote = .error e))
    ∧ (∀ entry, w.cached = some entry → (∃ e, fetchSpec w.getRemote = .error e) →
        (getCachedSpec url w).result = .ok entry.spec) := by
  constructor
  · rw [getCachedSpec]
    rcases hc : w.cached with _ | entry
    all_goals dsimp only
    · rcases hf : fetchSpec w.getRemote with e | ok3
      · dsimp only
        constructor
        · intro _
          exact ⟨rfl, e, rfl⟩
        · intro _
          exact ⟨e, rfl⟩
      · obtain ⟨spec, etag, lastModified⟩ := ok3
        dsimp only
        constructor
        · rintro ⟨e, he⟩
          cases he
        · rintro ⟨_, e, he⟩
          cases he
    · constructor
      · by_cases hm : checkIfModified w.headRemote entry = true
        · rw [if_pos hm]
          rcases hf : fetchSpec w.getRemote with e | ok3
          · dsimp only
            rintro ⟨e2, he⟩
            cases he
          · obtain ⟨spec, etag, lastModified⟩ := ok3
            dsimp only
            rintro ⟨e2, he⟩
            cases he
        · rw [if_neg hm]
          rintro ⟨e2, he⟩
          cases he
      · rintro ⟨hcn, _⟩
        cases hcn
  · intro entry hentry ⟨e, hfail⟩
    rw [getCachedSpec, hentry]
    dsimp only
    by_cases hm : checkIfModified w.headRemote entry = true
    · rw [if_pos hm, hfail]
    · rw [if_neg hm]

/-- C6: with a cached etag `"v1"` and a lightweight check reporting etag
`"v1"`, the cached document is returned as stored, with no full fetch and
no cache write. -/
theorem getCachedSpec_fresh_noop (url : String) (w : CacheWorld) (entry : CacheEntry)
    (lm : Option String) (hc : w.cached = some entry) (he : entry.etag = some "v1")
    (hh : w.headRemote = .respond 200 (some "v1") lm) :
    (getCachedSpec url w).result = .ok entry.spec
    ∧ (getCachedSpec url w).fullFetch = false
    ∧ (getCachedSpec url w).written = none := by
  have hmod : checkIfModified w.headRemote entry = false := by
    rw [hh, checkIfModified]
    rw [if_neg (by omega), if_neg (by decide), if_neg (by omega), he]
    rw [if_pos (by rfl)]
    rfl
  rw [getCachedSpec, hc]
  dsimp only
  rw [if_neg (by rw [hmod]; simp)]
  exact ⟨rfl, rfl, rfl⟩

/-- C7: with a cached etag `"v1"`, a lightweight check reporting etag
`"v2"`, and the remote serving a 200 whose etag is `"v2"`, a full fetch is
performed, a wholly new entry carrying etag `"v2"` and the fresh document
is persisted, and the fresh document is returned. -/
theorem getCachedSpec_stale_refetch (url : String) (w : CacheWorld) (entry : CacheEntry)
    (lm1 lm2 : Option String) (body : Json)
    (hc : w.cached = some entry) (he : entry.etag = some "v1")
    (hh : w.headRemote = .respond 200 (some "v2") lm1)
    (hg : w.getRemote = .respond 200 body (some "v2") lm2) :
    (getCachedSpec url w).fullFetch = true
    ∧ (getCachedSpec url w).written = some ⟨url, some "v2", lm2, w.now, body⟩
    ∧ (getCachedSpec url w).result = .ok body := by
  have hmod : checkIfModified w.headRemote entry = true := by
    rw [hh, checkIfModified]
    rw [if_neg (by omega), if_neg (by decide), if_neg (by omega), he]
    rw [if_pos (by rfl)]
    rfl
  have hfetch : fetchSpec w.getRemote = .ok (body, some "v2", lm2) := by
    rw [hg, fetchSpec]
    rfl
  rw [getCachedSpec, hc]
  dsimp only
  rw [if_pos hmod, hfetch]
  exact ⟨rfl, rfl, rfl⟩

/-! ## Claims about version detection -/

/-- The recognizable legacy version marker: a `swagger` field strictly
equal to the string `"2.0"`. -/
def hasLegacyMarker (spec : Json) : Bool :=
  match spec with
  | .obj kvs =>
    match lookupKvs kvs.toList "swagger" with
    | some (.str s) => s == "2.0"
    | _ => false
  | _ => false

/-- The 3.x version marker: the presence of an `openapi` field. -/
def has3xMarker (spec : Json) : Bool :=
  match spec with
  | .obj kvs => hasKeyJ kvs.toList "openapi"
  | _ => false

/-- Type-conformance of the `info` field: the `OpenAPISpec` interface
requires a present, non-null `info`, which `normalizeSpec` reads through. -/
def infoOk (spec : Json) : Bool :=
  match spec with
  | .obj kvs =>
    match lookupKvs kvs.toList "info" with
    | some .null => false
    | some _ => true
    | none => false
  | _ => true

theorem jsGetProp_ok {v : Json} (hv : v ≠ .null) (k : String) :
    ∃ u, jsGetProp (some v) k = .ok u := by
  cases v with
  | null => exact absurd rfl hv
  | bool b => exact ⟨none, rfl⟩
  | num n => exact ⟨none, rfl⟩
  | str s => exact ⟨_, rfl⟩
  | arr xs => exact ⟨_, rfl⟩
  | obj kvs => exact ⟨_, rfl⟩

theorem detectVersion_obj_eq (kvs : JObj) :
    detectVersion (.obj kvs) =
      (match lookupKvs kvs.toList "swagger" with
       | some (.str s) =>
         if s == "2.0" then .ok "2.0"
         else if hasKeyJ kvs.toList "openapi" then .ok "3.0+"
         else .error "Unknown or unsupported OpenAPI/Swagger version"
       | _ =>
         if hasKeyJ kvs.toList "openapi" then .ok "3.0+"
         else .error "Unknown or unsupported OpenAPI/Swagger version") := rfl

theorem detectVersion_markers (spec : Json) :
    ((∃ e, detectVersion spec = .error e) ↔
      hasLegacyMarker spec = false ∧ has3xMarker spec = false)
    ∧ (hasLegacyMarker spec = true → detectVersion spec = .ok "2.0")
    ∧ (hasLegacyMarker spec = false → has3xMarker spec = true →
        detectVersion spec = .ok "3.0+") := by
  cases spec with
  | null =>
    exact ⟨⟨fun _ => ⟨rfl, rfl⟩, fun _ => ⟨_, rfl⟩⟩,
      fun h => Bool.noConfusion h, fun _ h => Bool.noConfusion h⟩
  | bool b =>
    exact ⟨⟨fun _ => ⟨rfl, rfl⟩, fun _ => ⟨_, rfl⟩⟩,
      fun h => Bool.noConfusion h, fun _ h => Bool.noConfusion h⟩
  | num n =>
    exact ⟨⟨fun _ => ⟨rfl, rfl⟩, fun _ => ⟨_, rfl⟩⟩,
      fun h => Bool.noConfusion h, fun _ h => Bool.noConfusion h⟩
  | str s =>
    exact ⟨⟨fun _ => ⟨rfl, rfl⟩, fun _ => ⟨_, rfl⟩⟩,
      fun h => Bool.noConfusion h, fun _ h => Bool.noConfusion h⟩
  | arr xs =>
    exact ⟨⟨fun _ => ⟨rfl, rfl⟩, fun _ => ⟨_, rfl⟩⟩,
      fun h => Bool.noConfusion h, fun _ h => Bool.noConfusion h⟩
  | obj kvs =>
    have hlm : hasLegacyMarker (.obj kvs) =
        (match lookupKvs kvs.toList "swagger" with
         | some (.str s) => s == "2.0"
         | _ => false) := rfl
    have h3m : has3xMarker (.obj kvs) = hasKeyJ kvs.toList "openapi" := rfl
    rw [detectVersion_obj_eq, hlm, h3m]
    rcases hl : lookupKvs kvs.toList "swagger" with _ | v
    · dsimp only
      by_cases ho : hasKeyJ kvs.toList "openapi" = true
      · simp [ho]
      · have ho' : hasKeyJ kvs.toList "openapi" = false := by
          rwa [Bool.not_eq_true] at ho
        simp [ho']
    · cases v with
      | str s =>
        dsimp only
        by_cases h2 : (s == "2.0") = true
        · simp [h2]
        · have h2' : (s == "2.0") = false := by rwa [Bool.not_eq_true] at h2
          by_cases ho : hasKeyJ kvs.toList "openapi" = true
          · simp [h2', ho]
          · have ho' : hasKeyJ kvs.toList "openapi" = false := by
              rwa [Bool.not_eq_true] at ho
            simp [h2', ho']
      | null =>
        dsimp only
        by_cases ho : hasKeyJ kvs.toList "openapi" = true
        · simp [ho]
        · have ho' : hasKeyJ kvs.toList "openapi" = false := by
            rwa [Bool.not_eq_true] at ho
          simp [ho']
      | bool b =>
        dsimp only
        by_cases ho : hasKeyJ kvs.toList "openapi" = true
        · simp [ho]
        · have ho' : hasKeyJ kvs.toList "openapi" = false := by
            rwa [Bool.not_eq_true] at ho
          simp [ho']
      | num n =>
        dsimp only
        by_cases ho : hasKeyJ kvs.toList "openapi" = true
        · simp [ho]
        · have ho' : hasKeyJ kvs.toList "openapi" = false := by
            rwa [Bool.not_eq_true] at ho
          simp [ho']
      | arr ys =>
        dsimp only
        by_cases ho : hasKeyJ kvs.toList "openapi" = true
        · simp [ho]
        · have ho' : hasKeyJ kvs.toList "openapi" = false := by
            rwa [Bool.not_eq_true] at ho
          simp [ho']
      | obj fs =>
        dsimp only
        by_cases ho : hasKeyJ kvs.toList "openapi" = true
        · simp [ho]
        · have ho' : hasKeyJ kvs.toList "openapi" = false := by
            rwa [Bool.not_eq_true] at ho
          simp [ho']

theorem normalizeSpec_propagates {spec : Json} {e : String}
    (h : detectVersion spec = .error e) : normalizeSpec spec = .error e := by
  rw [normalizeSpec.eq_def, h]

theorem normalizeSpec_ok_of_detect {spec : Json} {ver : String}
    (hinfo : infoOk spec = true) (hd : detectVersion spec = .ok ver) :
    ∃ u, normalizeSpec spec = .ok u := by
  obtain ⟨kvs, rfl⟩ : ∃ kvs, spec = Json.obj kvs := by
    cases spec with
    | obj kvs => exact ⟨kvs, rfl⟩
    | null => cases hd
    | bool b => cases hd
    | num n => cases hd
    | str s => cases hd
    | arr xs => cases hd
  obtain ⟨v, hli, hv⟩ : ∃ v, lookupKvs kvs.toList "info" = some v ∧ v ≠ .null := by
    rw [infoOk] at hinfo
    rcases hli : lookupKvs kvs.toList "info" with _ | v
    · rw [hli] at hinfo
      cases hinfo
    · rw [hli] at hinfo
      cases v with
      | null => cases hinfo
      | bool b => exact ⟨_, rfl, fun he => Json.noConfusion he⟩
      | num n => exact ⟨_, rfl, fun he => Json.noConfusion he⟩
      | str s => exact ⟨_, rfl, fun he => Json.noConfusion he⟩
      | arr xs => exact ⟨_, rfl, fun he => Json.noConfusion he⟩
      | obj fs => exact ⟨_, rfl, fun he => Json.noConfusion he⟩
  obtain ⟨t, ht⟩ := jsGetProp_ok hv "title"
  obtain ⟨d, hdesc⟩ := jsGetProp_ok hv "description"
  rw [normalizeSpec.eq_def, hd]
  dsimp only
  rw [hli, ht, hdesc]
  by_cases hver : (ver == "2.0") = true
  · rw [if_pos hver]
    exact ⟨_, rfl⟩
  · rw [if_neg hver]
    exact ⟨_, rfl⟩

/-- C9: `detectVersion` raises exactly when the document carries neither
the legacy marker (`swagger` strictly `"2.0"`) nor a 3.x marker (an
`openapi` field); with the legacy marker it returns `"2.0"`, otherwise
with the 3.x marker it returns `"3.0+"`; the error propagates unchanged
through `normalizeSpec`, and for documents whose `info` honours the
`OpenAPISpec` type, `normalizeSpec` raises exactly under the same
no-marker condition. -/
theorem detectVersion_error_iff_no_marker (spec : Json) :
    ((∃ e, detectVersion spec = .error e) ↔
      hasLegacyMarker spec = false ∧ has3xMarker spec = false)
    ∧ (hasLegacyMarker spec = true → detectVersion spec = .ok "2.0")
    ∧ (hasLegacyMarker spec = false → has3xMarker spec = true →
        detectVersion spec = .ok "3.0+")
    ∧ (∀ e, detectVersion spec = .error e → normalizeSpec spec = .error e)
    ∧ (infoOk spec = true →
        ((∃ e, normalizeSpec spec = .error e) ↔
          hasLegacyMarker spec = false ∧ has3xMarker spec = false)) := by
  obtain ⟨hiff, h20, h3x⟩ := detectVersion_markers spec
  refine ⟨hiff, h20, h3x, fun e he => normalizeSpec_propagates he, fun hinfo => ?_⟩
  constructor
  · intro ⟨e, he⟩
    rcases hd : detectVersion spec with e2 | ver
    · exact hiff.mp ⟨e2, hd⟩
    · obtain ⟨u, hu⟩ := normalizeSpec_ok_of_detect hinfo hd
      rw [hu] at he
      cases he
  · intro hmk
    obtain ⟨e, he⟩ := hiff.mpr hmk
    exact ⟨e, normalizeSpec_propagates he⟩

/-- C9 witness: a document with only an `openapi` key detects as `"3.0+"`;
one with `swagger: "2.0"` detects as `"2.0"`; one with neither raises and
the error propagates through `normalizeSpec`. -/
theorem detectVersion_error_iff_no_marker_witness :
    detectVersion (.obj (.cons "openapi" (.str "3.1.0")
        (.cons "info" (.obj (.cons "title" (.str "t") .nil)) .nil))) = .ok "3.0+"
    ∧ detectVersion (.obj (.cons "swagger" (.str "2.0")
        (.cons "info" (.obj (.cons "title" (.str "t") .nil)) .nil))) = .ok "2.0"
    ∧ (∃ e, normalizeSpec (.obj (.cons "title" (.str "t") .nil)) = .error e) := by
  refine ⟨?_, ?_, ?_⟩
  · exact (detectVersion_error_iff_no_marker _).2.2.1 rfl rfl
  · exact (detectVersion_error_iff_no_marker _).2.1 rfl
  · exact ⟨_, (detectVersion_error_iff_no_marker _).2.2.2.1 _ rfl⟩

/-! ## Claims about reference resolution -/

theorem isPrim_of_refOf {schema v : Json} (h : refOf schema = some v) :
    isPrim schema = false := by
  cases schema with
  | obj kvs => rfl
  | null => simp [refOf] at h
  | bool b => simp [refOf] at h
  | num n => simp [refOf] at h
  | str s => simp [refOf] at h
  | arr xs => simp [refOf] at h

theorem resolveSchema_ref_visited {spec schema : Json} {visited : Finset String}
    {r : String} (href : refOf schema = some (.str r)) (hvis : r ∈ visited) :
    resolveSchema spec schema visited = .ok (circularPlaceholder r) := by
  rw [resolveSchema_unfold, resolveStep]
  rw [if_neg (by rw [isPrim_of_refOf href]; exact Bool.false_ne_true)]
  split
  · rename_i r2 heq
    have h2 := href.symm.trans heq
    cases h2
    rw [if_pos hvis]
  · rename_i v hne heq
    have h2 := href.symm.trans heq
    cases h2
    exact absurd rfl (hne r)
  · rename_i heq
    rw [href] at heq
    cases heq

theorem resolveSchema_ref_unresolvable {spec schema : Json} {visited : Finset String}
    {r : String} (href : refOf schema = some (.str r)) (hvis : r ∉ visited)
    (herr : ∀ u, resolveRef spec r ≠ .ok u) :
    resolveSchema spec schema visited = .ok schema := by
  rw [resolveSchema_unfold, resolveStep]
  rw [if_neg (by rw [isPrim_of_refOf href]; exact Bool.false_ne_true)]
  split
  · rename_i r2 heq
    have h2 := href.symm.trans heq
    cases h2
    rw [if_neg hvis]
    split
    · rfl
    · rename_i target heqt
      exact absurd heqt (herr target)
  · rename_i v hne heq
    have h2 := href.symm.trans heq
    cases h2
    exact absurd rfl (hne r)
  · rename_i heq
    rw [href] at heq
    cases heq

theorem resolveRef_external (spec : Json) (r : String)
    (h : startsWithHashSlash r = false) :
    resolveRef spec r = .error ("External references not supported: " ++ r) := by
  rw [resolveRef, h]
  rfl

/-- The self-referential `Node` document of the specification's example. -/
def nodeRef : String := "#/components/schemas/Node"

def nodeSchema : Json :=
  .obj (.cons "type" (.str "object")
    (.cons "properties"
      (.obj (.cons "next" (.obj (.cons "$ref" (.str nodeRef) .nil)) .nil)) .nil))

def nodeSpec : Json :=
  .obj (.cons "openapi" (.str "3.0.0")
    (.cons "components"
      (.obj (.cons "schemas" (.obj (.cons "Node" nodeSchema .nil)) .nil)) .nil))

def nodeFrag : Json := .obj (.cons "$ref" (.str nodeRef) .nil)

/-- C1: resolution terminates and does not raise. The recursion stabilises
at the explicit bound `fuelFor` (the source's recursion depth never
exceeds it); a fragment whose composition keywords hereditarily honour the
`Schema` type resolves without raising; a reference whose exact pointer
string is already on the resolution path yields the `type: "object"`
placeholder naming the circular pointer; and the self-cyclic `Node`
example resolves, its `next` bottoming out at that placeholder after one
expansion. -/
theorem resolveSchema_terminates_and_breaks_cycles :
    (∀ (spec : Json) (fuel : Nat) (schema : Json) (visited : Finset String),
      fuelFor spec schema visited ≤ fuel →
        resolveSchemaF spec fuel schema visited = resolveSchema spec schema visited)
    ∧ (∀ (spec schema : Json) (visited : Finset String), wfComp schema = true →
        ∃ u, resolveSchema spec schema visited = .ok u)
    ∧ (∀ (spec schema : Json) (visited : Finset String) (r : String),
        refOf schema = some (.str r) → r ∈ visited →
          resolveSchema spec schema visited = .ok (circularPlaceholder r))
    ∧ resolveSchema nodeSpec nodeFrag ∅ =
        .ok (.obj (.cons "type" (.str "object")
          (.cons "properties"
            (.obj (.cons "next" (circularPlaceholder nodeRef) .nil)) .nil))) := by
  refine ⟨?_, ?_, ?_, ?_⟩
  · exact fun spec fuel schema visited h => resolveSchemaF_stab spec fuel schema visited h
  · exact fun spec schema visited hwf =>
      resolveSchema_ok_of_wf spec (fuelFor spec schema visited) schema visited le_rfl hwf
  · exact fun spec schema visited r href hvis => resolveSchema_ref_visited href hvis
  · set_option maxRecDepth 40000 in exact rfl

/-- C1 witness: the stabilisation bound, the no-raise guarantee and the
placeholder equation instantiated on the `Node` document. -/
theorem resolveSchema_terminates_witness :
    resolveSchemaF nodeSpec (fuelFor nodeSpec nodeFrag ∅) nodeFrag ∅ =
      resolveSchema nodeSpec nodeFrag ∅
    ∧ (∃ u, resolveSchema nodeSpec nodeSchema ∅ = .ok u)
    ∧ resolveSchema nodeSpec nodeFrag {nodeRef} = .ok (circularPlaceholder nodeRef) := by
  refine ⟨?_, ?_, ?_⟩
  · exact resolveSchema_terminates_and_breaks_cycles.1 nodeSpec _ nodeFrag ∅ le_rfl
  · exact resolveSchema_terminates_and_breaks_cycles.2.1 nodeSpec nodeSchema ∅ (by rfl)
  · exact resolveSchema_terminates_and_breaks_cycles.2.2.1 nodeSpec nodeFrag {nodeRef}
      nodeRef rfl (Finset.mem_singleton_self nodeRef)

/-- C8: a reference that is not internal (not starting with `#/`) makes
`resolveRef` raise, and any `resolveRef` failure (missing segment,
non-container traversal, external form) is caught inside `resolveSchema`,
which returns the original unresolved fragment unchanged instead of
propagating the error. -/
theorem resolveSchema_soft_unresolvable :
    (∀ (spec : Json) (r : String), startsWithHashSlash r = false →
      resolveRef spec r = .error ("External references not supported: " ++ r))
    ∧ (∀ (spec schema : Json) (visited : Finset String) (r : String),
        refOf schema = some (.str r) → r ∉ visited →
        (∀ u, resolveRef spec r ≠ .ok u) →
        resolveSchema spec schema visited = .ok schema) := by
  constructor
  · exact fun spec r h => resolveRef_external spec r h
  · exact fun spec schema visited r href hvis herr =>
      resolveSchema_ref_unresolvable href hvis herr

/-- C8 witness: an external reference and a dangling internal reference
both leave their fragments unchanged. -/
theorem resolveSchema_soft_unresolvable_witness :
    resolveSchema nodeSpec (.obj (.cons "$ref" (.str "http://other.test/x") .nil)) ∅
      = .ok (.obj (.cons "$ref" (.str "http://other.test/x") .nil))
    ∧ resolveSchema nodeSpec (.obj (.cons "$ref" (.str "#/components/schemas/Missing") .nil)) ∅
      = .ok (.obj (.cons "$ref" (.str "#/components/schemas/Missing") .nil)) := by
  constructor
  · exact resolveSchema_soft_unresolvable.2 nodeSpec _ ∅ "http://other.test/x" rfl
      (Finset.not_mem_empty _) (fun u h => by cases h)
  · exact resolveSchema_soft_unresolvable.2 nodeSpec _ ∅ "#/components/schemas/Missing" rfl
      (Finset.not_mem_empty _) (fun u h => by cases h)

/-! ## Claims about sibling independence and merge-with-override -/

theorem toList_ofList : ∀ l : List (String × Json), JObj.toList (JObj.ofList l) = l
  | [] => rfl
  | (k, v) :: tl => by
    rw [JObj.ofList, JObj.toList, toList_ofList tl]

theorem mapM_pair {α β : Type} (f : α → Except String β) (a b : α) :
    [a, b].mapM f =
      match f a with
      | .error e => .error e
      | .ok x =>
        match f b with
        | .error e => .error e
        | .ok y => .ok [x, y] := by
  rcases ha : f a with e | x
  · rw [List.mapM_cons, ha]
    rfl
  · rw [List.mapM_cons, ha]
    rcases hb : f b with e | y
    · rw [List.mapM_cons, hb]
      rfl
    · rw [List.mapM_cons, hb]
      rfl

theorem lookupKvs_setProp_self : ∀ (l : List (String × Json)) (k : String) (v : Json),
    lookupKvs (setProp l k v) k = some v := by
  intro l k v
  induction l with
  | nil => simp [setProp, lookupKvs, List.find?]
  | cons p tl ih =>
    obtain ⟨k', v'⟩ := p
    rw [setProp]
    by_cases h : (k' == k) = true
    · rw [if_pos h]
      simp [lookupKvs, List.find?, h]
    · rw [if_neg h]
      rw [Bool.not_eq_true] at h
      simp only [lookupKvs, List.find?, h]
      exact ih

theorem lookupKvs_of_stepShape {key : String} {kvs kvs' : List (String × Json)}
    (h : stepShape key kvs kvs') (k' : String) (hne : k' ≠ key) :
    lookupKvs kvs' k' = lookupKvs kvs k' := by
  rcases h with rfl | ⟨v, rfl⟩
  · rfl
  · exact lookupKvs_setProp_ne kvs key k' v hne

theorem lookupKvs_charEntries_none {k : String} {c : Char} (hc : c ∈ k.data)
    (hnd : ¬c.isDigit = true) (l : List Char) :
    ∀ i, lookupKvs (charEntries i l) k = none := by
  induction l with
  | nil => intro i; rfl
  | cons x xs ih =>
    intro i
    rw [charEntries, lookupKvs, List.find?]
    have : (natToStr i == k) = false := by
      simp only [beq_eq_false_iff_ne]
      exact natToStr_ne hc hnd i
    rw [this]
    exact ih (i + 1)

theorem getTruthy_spread_ref {t : Json} (h : refOf t = none) :
    getTruthy (jsSpread t) "$ref" = none := by
  cases t with
  | obj kvs => exact h
  | arr xs =>
    rw [jsSpread, getTruthy,
      @lookupKvs_arrEntries_none "$ref" '$' (by decide) (by decide) xs.toList 0]
  | str s =>
    rw [jsSpread, getTruthy,
      @lookupKvs_charEntries_none "$ref" '$' (by decide) (by decide) s.data 0]
  | null => rfl
  | bool b => rfl
  | num n => rfl

theorem branchStep_descr {rec : Json → Except String Json}
    {base : List (String × Json)} {j : Json} (h : branchStep rec base = .ok j) :
    ∃ out, j = .obj (JObj.ofList out)
      ∧ lookupKvs out "description" = lookupKvs base "description" := by
  rw [branchStep] at h
  split at h
  · cases h
  · rename_i r1 h1
    split at h
    · cases h
    · rename_i r2 h2
      split at h
      · cases h
      · rename_i r3 h3
        split at h
        · cases h
        · rename_i r4 h4
          split at h
          · cases h
          · rename_i r5 h5
            split at h
            · cases h
            · rename_i r6 h6
              split at h
              · cases h
              · rename_i r7 h7
                cases h
                refine ⟨r7, rfl, ?_⟩
                rw [lookupKvs_of_stepShape (stepNot_shape h7) _ (by decide),
                  lookupKvs_of_stepShape (stepComp_shape h6) _ (by decide),
                  lookupKvs_of_stepShape (stepComp_shape h5) _ (by decide),
                  lookupKvs_of_stepShape (stepComp_shape h4) _ (by decide),
                  lookupKvs_of_stepShape (stepAdditional_shape h3) _ (by decide),
                  lookupKvs_of_stepShape (stepItems_shape h2) _ (by decide),
                  lookupKvs_of_stepShape (stepProperties_shape h1) _ (by decide)]

/-! ### Claim C4: sibling branches share the same visited set -/

def pairTarget : Json := .obj (.cons "type" (.str "string") .nil)

def pairSpec : Json :=
  .obj (.cons "components"
    (.obj (.cons "schemas" (.obj (.cons "T" pairTarget .nil)) .nil)) .nil)

def pairRef : String := "#/components/schemas/T"

def pairFrag : Json :=
  .obj (.cons "properties"
    (.obj (.cons "a" (.obj (.cons "$ref" (.str pairRef) .nil))
      (.cons "b" (.obj (.cons "$ref" (.str pairRef) .nil)) .nil))) .nil)

theorem resolveSchema_two_props (spec : Json) (visited : Finset String)
    (ka kb : String) (fa fb : Json) :
    resolveSchema spec
      (Json.obj (JObj.cons "properties"
        (Json.obj (JObj.cons ka fa (JObj.cons kb fb JObj.nil))) JObj.nil)) visited =
      (match resolveSchema spec fa visited with
      | .error e => .error e
      | .ok ga =>
        match resolveSchema spec fb visited with
        | .error e => .error e
        | .ok gb =>
          .ok (Json.obj (JObj.cons "properties"
            (Json.obj (JObj.cons ka ga (JObj.cons kb gb JObj.nil))) JObj.nil))) := by
  rw [resolveSchema_unfold, resolveStep]
  rw [if_neg (show ¬ isPrim (Json.obj (JObj.cons "properties"
        (Json.obj (JObj.cons ka fa (JObj.cons kb fb JObj.nil))) JObj.nil)) = true from
      fun h => Bool.noConfusion h)]
  rw [show refOf (Json.obj (JObj.cons "properties"
        (Json.obj (JObj.cons ka fa (JObj.cons kb fb JObj.nil))) JObj.nil)) =
      (none : Option Json) from rfl]
  dsimp only
  rw [branchStep]
  rw [show jsSpread (Json.obj (JObj.cons "properties"
        (Json.obj (JObj.cons ka fa (JObj.cons kb fb JObj.nil))) JObj.nil)) =
      [("properties", Json.obj (JObj.cons ka fa (JObj.cons kb fb JObj.nil)))] from rfl]
  rw [show stepProperties (fun v => resolveSchema spec v visited)
        [("properties", Json.obj (JObj.cons ka fa (JObj.cons kb fb JObj.nil)))] =
      (match [(ka, fa), (kb, fb)].mapM
          (fun q => (resolveSchema spec q.2 visited).map (fun v => (q.1, v))) with
      | .error e => .error e
      | .ok entries =>
        .ok (setProp [("properties", Json.obj (JObj.cons ka fa (JObj.cons kb fb JObj.nil)))]
          "properties" (.obj (JObj.ofList entries)))) from rfl]
  rw [mapM_pair]
  dsimp only
  rcases hfa : resolveSchema spec fa visited with ea | ga
  · rfl
  · rcases hfb : resolveSchema spec fb visited with eb | gb
    · rfl
    · rfl

/-- **C4**: resolution is order-independent across sibling branches: for a
fragment with two sibling properties, each sibling is resolved by a call
`resolveSchema spec · visited` receiving the same (independently copied)
visited set, the outcome combining the two independent results; in
particular two siblings referencing the same target both resolve fully to
the target's expansion, as the concrete two-sibling document shows. -/
theorem resolveSchema_siblings_order_independent :
    (∀ (spec : Json) (visited : Finset String) (ka kb : String) (fa fb : Json),
      resolveSchema spec
        (Json.obj (JObj.cons "properties"
          (Json.obj (JObj.cons ka fa (JObj.cons kb fb JObj.nil))) JObj.nil)) visited =
        (match resolveSchema spec fa visited with
        | .error e => .error e
        | .ok ga =>
          match resolveSchema spec fb visited with
          | .error e => .error e
          | .ok gb =>
            .ok (Json.obj (JObj.cons "properties"
              (Json.obj (JObj.cons ka ga (JObj.cons kb gb JObj.nil))) JObj.nil))))
    ∧ resolveSchema pairSpec pairFrag ∅ =
        .ok (.obj (.cons "properties"
          (.obj (.cons "a" pairTarget (.cons "b" pairTarget .nil))) .nil)) := by
  refine ⟨resolveSchema_two_props, ?_⟩
  set_option maxRecDepth 40000 in exact rfl

/-! ### Claim C5: `$ref` plus siblings merge with sibling override -/

/-- General form of the merge-with-override behaviour: a fragment holding a
reference `r` and a sibling `description` resolves (whenever `r` is not on
the current path and its target carries no truthy `$ref` of its own) to an
object whose `description` is the sibling's, whatever the target says. -/
theorem resolveSchema_ref_desc_general (spec : Json) (visited : Finset String)
    (r d : String) (hvis : r ∉ visited)
    (htgt : ∀ t, resolveRef spec r = .ok t → refOf t = none) :
    ∃ out, resolveSchema spec
        (Json.obj (JObj.cons "$ref" (Json.str r)
          (JObj.cons "description" (Json.str d) JObj.nil))) visited =
        .ok (Json.obj (JObj.ofList out))
      ∧ lookupKvs out "description" = some (Json.str d) := by
  by_cases hre : r = ""
  · subst hre
    refine ⟨[("$ref", Json.str ""), ("description", Json.str d)], ?_, rfl⟩
    rw [resolveSchema_unfold]
    exact rfl
  · have hrt : (r != "") = true := bne_iff_ne.mpr hre
    rw [resolveSchema_unfold, resolveStep]
    rw [if_neg (show ¬ isPrim (Json.obj (JObj.cons "$ref" (Json.str r)
        (JObj.cons "description" (Json.str d) JObj.nil))) = true from
      fun h => Bool.noConfusion h)]
    have href : refOf (Json.obj (JObj.cons "$ref" (Json.str r)
        (JObj.cons "description" (Json.str d) JObj.nil))) = some (Json.str r) := by
      show (if jsTruthy (Json.str r) = true then some (Json.str r) else none) =
        some (Json.str r)
      rw [if_pos (show jsTruthy (Json.str r) = true from hrt)]
    rw [href]
    dsimp only
    rw [if_neg hvis]
    rcases heqt : resolveRef spec r with er | target
    · exact ⟨[("$ref", Json.str r), ("description", Json.str d)], rfl, rfl⟩
    · dsimp only
      rw [show mergeProps (jsSpread target)
          (removeKey (jsSpread (Json.obj (JObj.cons "$ref" (Json.str r)
            (JObj.cons "description" (Json.str d) JObj.nil)))) "$ref") =
          setProp (jsSpread target) "description" (Json.str d) from rfl]
      rcases hm : resolveSchema spec
          (Json.obj (JObj.ofList (setProp (jsSpread target) "description" (Json.str d))))
          (insert r visited) with em | vm
      · exact ⟨[("$ref", Json.str r), ("description", Json.str d)], rfl, rfl⟩
      · rw [resolveSchema_unfold, resolveStep] at hm
        rw [if_neg (show ¬ isPrim (Json.obj (JObj.ofList
            (setProp (jsSpread target) "description" (Json.str d)))) = true from
          fun h => Bool.noConfusion h)] at hm
        have hrefm : refOf (Json.obj (JObj.ofList
            (setProp (jsSpread target) "description" (Json.str d)))) = none := by
          show getTruthy (JObj.toList (JObj.ofList
            (setProp (jsSpread target) "description" (Json.str d)))) "$ref" = none
          rw [toList_ofList]
          rw [getTruthy_setProp_ne (jsSpread target) "description" "$ref" (Json.str d)
            (by decide)]
          exact getTruthy_spread_ref (htgt target heqt)
        rw [hrefm] at hm
        dsimp only at hm
        rw [show jsSpread (Json.obj (JObj.ofList
            (setProp (jsSpread target) "description" (Json.str d)))) =
          JObj.toList (JObj.ofList
            (setProp (jsSpread target) "description" (Json.str d))) from rfl,
          toList_ofList] at hm
        obtain ⟨out, hvm, hdesc⟩ := branchStep_descr hm
        refine ⟨out, ?_, ?_⟩
        · rw [hvm]
        · rw [hdesc, lookupKvs_setProp_self]

def petSchema : Json := .obj (.cons "type" (.str "string") .nil)

def userRef : String := "#/components/schemas/User"

def userSchema : Json :=
  .obj (.cons "type" (.str "object")
    (.cons "description" (.str "original")
      (.cons "properties"
        (.obj (.cons "pet"
          (.obj (.cons "$ref" (.str "#/components/schemas/Pet") .nil)) .nil)) .nil)))

def userSpec : Json :=
  .obj (.cons "components"
    (.obj (.cons "schemas"
      (.obj (.cons "User" userSchema (.cons "Pet" petSchema .nil))) .nil)) .nil)

def overrideFrag : Json :=
  .obj (.cons "$ref" (.str userRef) (.cons "description" (.str "override") .nil))

/-- **C5**: a fragment carrying `$ref` plus a sibling `description` resolves
to the merged target with the sibling winning the key collision: in general
the result's `description` is the sibling's string, and concretely
`{ $ref: #/components/schemas/User, description: "override" }` resolves to
the User schema's fields (with its own `pet` reference expanded) under
`description: "override"`, not the target's original description. -/
theorem resolveSchema_sibling_override :
    (∀ (spec : Json) (visited : Finset String) (r d : String),
      r ∉ visited →
      (∀ t, resolveRef spec r = .ok t → refOf t = none) →
      ∃ out, resolveSchema spec
          (Json.obj (JObj.cons "$ref" (Json.str r)
            (JObj.cons "description" (Json.str d) JObj.nil))) visited =
          .ok (Json.obj (JObj.ofList out))
        ∧ lookupKvs out "description" = some (Json.str d))
    ∧ resolveSchema userSpec overrideFrag ∅ =
        .ok (.obj (.cons "type" (.str "object")
          (.cons "description" (.str "override")
            (.cons "properties" (.obj (.cons "pet" petSchema .nil)) .nil)))) := by
  refine ⟨resolveSchema_ref_desc_general, ?_⟩
  set_option maxRecDepth 40000 in exact rfl

/-- Closed instance of C5: the general conjunct applied to the concrete
User document at a fresh sibling description. -/
theorem resolveSchema_sibling_override_witness :
    ∃ out, resolveSchema userSpec
        (Json.obj (JObj.cons "$ref" (Json.str userRef)
          (JObj.cons "description" (Json.str "note") JObj.nil))) ∅ =
        .ok (Json.obj (JObj.ofList out))
      ∧ lookupKvs out "description" = some (Json.str "note") :=
  resolveSchema_sibling_override.1 userSpec ∅ userRef "note"
    (by decide)
    (by
      intro t ht
      cases (show Except.ok userSchema = Except.ok t from ht)
      rfl)

/-- **C10**: `resolveSchema` never mutates its inputs: on a closed heap,
every execution of the heap-level resolver only extends the heap (every
write lands on a freshly allocated object), so after the call both the
document and the original fragment read back structurally unchanged at
every depth — repeated resolutions against the same in-memory document
always see the original schema graph. -/
theorem resolveSchemaH_no_mutation (spec schema : HVal) (fuel : Nat)
    (visited : Finset String) (h : Heap) (hcl : heapClosed h)
    (hbs : hvalBound spec h.size = true) (hbf : hvalBound schema h.size = true) :
    Heap.ext h (resolveSchemaH spec fuel schema visited h).2
    ∧ (∀ d, readback (resolveSchemaH spec fuel schema visited h).2 d spec =
        readback h d spec)
    ∧ (∀ d, readback (resolveSchemaH spec fuel schema visited h).2 d schema =
        readback h d schema) := by
  have hx := resolveSchemaH_frame spec fuel schema visited h
  exact ⟨hx, fun d => readback_ext hx hcl d spec hbs,
    fun d => readback_ext hx hcl d schema hbf⟩

def h0 : Heap := ⟨1, fun _ => .obj [("type", HVal.str "string")]⟩

/-- Closed instance of C10: resolving the one-object document against
itself leaves the pre-existing heap intact and the document's readback
unchanged. -/
theorem resolveSchemaH_no_mutation_witness :
    Heap.ext h0 (resolveSchemaH (.addr 0) 5 (.addr 0) ∅ h0).2
    ∧ readback (resolveSchemaH (.addr 0) 5 (.addr 0) ∅ h0).2 3 (.addr 0) =
        readback h0 3 (.addr 0) :=
  have H := resolveSchemaH_no_mutation (.addr 0) (.addr 0) 5 ∅ h0
    (fun a _ => rfl) (by decide) (by decide)
  ⟨H.1, H.2.1 3⟩

def entry6 : CacheEntry := ⟨"https://example.test/a.json", some "v1", none, "t0", .null⟩

def w6 : CacheWorld := ⟨some entry6, .respond 200 (some "v1") none, .unreachable, "t1"⟩

/-- Closed instance of C6: a matching etag pair serves the cached document
with no fetch and no write. -/
theorem getCachedSpec_fresh_noop_witness :
    (getCachedSpec "https://example.test/a.json" w6).result = .ok entry6.spec
    ∧ (getCachedSpec "https://example.test/a.json" w6).fullFetch = false
    ∧ (getCachedSpec "https://example.test/a.json" w6).written = none :=
  getCachedSpec_fresh_noop "https://example.test/a.json" w6 entry6 none rfl rfl rfl

def entry7 : CacheEntry := ⟨"https://example.test/b.json", some "v1", none, "t0", .null⟩

def w7 : CacheWorld :=
  ⟨some entry7, .respond 200 (some "v2") none,
    .respond 200 (.bool true) (some "v2") (some "L2"), "t9"⟩

/-- Closed instance of C7: a differing etag triggers the full fetch, the
wholly new entry is persisted and the fresh document returned. -/
theorem getCachedSpec_stale_refetch_witness :
    (getCachedSpec "https://example.test/b.json" w7).fullFetch = true
    ∧ (getCachedSpec "https://example.test/b.json" w7).written =
        some ⟨"https://example.test/b.json", some "v2", some "L2", w7.now, .bool true⟩
    ∧ (getCachedSpec "https://example.test/b.json" w7).result = .ok (.bool true) :=
  getCachedSpec_stale_refetch "https://example.test/b.json" w7 entry7 none (some "L2")
    (.bool true) rfl rfl rfl rfl
